import Mathlib

/-!
Verification of coschedula_monitor: task-timeline model and affine matrix engine

A shallow embedding of `src/logitem.h`, `src/logitem.cpp`, `src/monitor.h`,
`src/monitor.cpp` and `src/matrix.h`.

* Qt objects become plain records; a method that mutates its object becomes a
  function returning the new record together with the list of signals emitted.
* `quint64` / `std::uint64_t` values are natural numbers; every arithmetic
  operation of the source that can wrap is written with an explicit `% U64`.
* A C++ exception or failed assertion becomes `Except.error`.
* `Clock::now()` is an explicit argument (`now`) of each subscriber callback.
-/

/-- Mathlib 3x3 matrices, used only as the reference for determinant and adjugate. -/
abbrev Mat3 (T : Type) : Type := Matrix (Fin 3) (Fin 3) T

namespace CoschedulaMonitor

/-! ## Basic vocabulary -/

/-- Modulus of the unsigned 64-bit counters (`quint64`, `std::uint64_t`). -/
def U64 : Nat := 2 ^ 64

/-- Ways in which a call can fail instead of returning. -/
inductive Error where
  /-- `std::optional::value()` on an empty optional throws `std::bad_optional_access`. -/
  | badOptionalAccess
  /-- A `Q_ASSERT` / `assert` whose condition is false. -/
  | assertionFailed
  /-- `QList::back()` on an empty list. -/
  | emptyListBack
  deriving DecidableEq, Repr

/-- Qt signals emitted by `LogItem`, `Task` and `Monitor`. -/
inductive Signal where
  | logItem_endTimeChanged
  | task_suspendedChanged
  | task_finishedChanged
  | task_logChanged
  | task_startTimeChanged
  | task_endTimeChanged
  | task_workTimeChanged
  | monitor_tasksChanged
  | monitor_totalEndTimeChanged
  deriving DecidableEq, Repr

/-! ## logitem.h / logitem.cpp -/

/-- The helper `safeMinus` of logitem.cpp: `Q_ASSERT(a >= b); return a - b;`. -/
def safeMinus (a b : Nat) : Except Error Nat :=
  if a ≥ b then .ok (a - b) else .error .assertionFailed

/-- The class `TimePoint`: one field `m_ns`. -/
structure TimePoint where
  m_ns : Nat
  deriving DecidableEq, Repr

/-- Accessor `TimePoint::ns()`. -/
def TimePoint.ns (t : TimePoint) : Nat := t.m_ns

/-- Static `TimePoint::nsSinceEpoch`: the nanosecond count of the clock reading. -/
def TimePoint.nsSinceEpoch (timePoint : Nat) : Nat := timePoint

/-- The enumeration `enum class LogItem::State`. -/
inductive LogItem.State where
  | Started
  | Suspended
  | Resumed
  | Finished
  deriving DecidableEq, Repr

/-- The class `LogItem`. -/
structure LogItem where
  m_state : LogItem.State
  m_startTime : TimePoint
  m_endTime : TimePoint
  deriving DecidableEq, Repr

namespace LogItem

/-- Constructor `LogItem::LogItem(state, startTime, parent)`:
`m_startTime(startTime), m_endTime(startTime)`. -/
def ctor (state : State) (startTime : TimePoint) : LogItem :=
  { m_state := state, m_startTime := startTime, m_endTime := startTime }

def state (l : LogItem) : State := l.m_state
def startTime (l : LogItem) : TimePoint := l.m_startTime
def endTime (l : LogItem) : TimePoint := l.m_endTime
def startTimeNs (l : LogItem) : Nat := l.m_startTime.ns
def endTimeNs (l : LogItem) : Nat := l.m_endTime.ns

/-- Method `LogItem::setEndTime`. -/
def setEndTime (l : LogItem) (time : TimePoint) : LogItem × List Signal :=
  if l.m_endTime = time then (l, [])
  else ({ l with m_endTime := time }, [Signal.logItem_endTimeChanged])

end LogItem

/-! ## monitor.h / monitor.cpp : Task -/

/-- Modelled from the spec: `coschedula::scheduler::task_info` is declared in the
external header `coschedula/scheduler.h`; these are the four members the
monitor reads (`h`, `suspended`, `loc`, `dep`), with coroutine handles as
natural numbers and the source location as its function name. -/
structure task_info where
  h : Nat
  suspended : Bool
  loc : String
  dep : Option Nat
  deriving DecidableEq, Repr

/-- The class `Task`. -/
structure Task where
  m_handle : Nat
  m_suspended : Bool
  m_location : String
  m_dep : Option Nat
  m_finished : Bool
  m_log : List LogItem
  m_startTime : Nat
  m_endTime : Nat
  m_workTime : Nat
  deriving DecidableEq, Repr

namespace Task

/-- Constructor `Task::Task(data, startTime, parent)`; `m_finished`,
`m_startTime`, `m_endTime` and `m_workTime` take their default member
initialisers. -/
def ctor (data : task_info) (startTime : TimePoint) : Task :=
  { m_handle := data.h
    m_suspended := data.suspended
    m_location := data.loc
    m_dep := data.dep
    m_finished := false
    m_log := [LogItem.ctor LogItem.State.Started startTime]
    m_startTime := 0
    m_endTime := 0
    m_workTime := 0 }

/-- Method `Task::markFinished`. -/
def markFinished (t : Task) : Task × List Signal :=
  if t.m_finished then (t, [])
  else ({ t with m_finished := true }, [Signal.task_finishedChanged])

def location (t : Task) : String := t.m_location
def handle (t : Task) : Nat := t.m_handle
def logList (t : Task) : List LogItem := t.m_log

/-- Method `Task::setSuspended`. -/
def setSuspended (t : Task) (suspended : Bool) : Task × List Signal :=
  if t.m_suspended = suspended then (t, [])
  else ({ t with m_suspended := suspended }, [Signal.task_suspendedChanged])

def startTime (t : Task) : Nat := t.m_startTime
def endTime (t : Task) : Nat := t.m_endTime
def workTime (t : Task) : Nat := t.m_workTime

/-- Method `Task::setStartTime`. -/
def setStartTime (t : Task) (newStartTime : Nat) : Task × List Signal :=
  if t.m_startTime = newStartTime then (t, [])
  else ({ t with m_startTime := newStartTime }, [Signal.task_startTimeChanged])

/-- Method `Task::setEndTime`. -/
def setEndTime (t : Task) (newEndTime : Nat) : Task × List Signal :=
  if t.m_endTime = newEndTime then (t, [])
  else ({ t with m_endTime := newEndTime }, [Signal.task_endTimeChanged])

/-- Method `Task::setWorkTime`. -/
def setWorkTime (t : Task) (newWorkTime : Nat) : Task × List Signal :=
  if t.m_workTime = newWorkTime then (t, [])
  else ({ t with m_workTime := newWorkTime }, [Signal.task_workTimeChanged])

/-- First half of `Task::addLog`: the `if (!m_log.isEmpty())` block, which
closes the last entry at `time` and, when that entry is `Resumed`, adds its
duration to the work time (both in `quint64` arithmetic). -/
def closeBack (t : Task) (time : TimePoint) : Task × List Signal :=
  match t.m_log.getLast? with
  | none => (t, [])
  | some back =>
    let r := back.setEndTime time
    let t1 : Task := { t with m_log := t.m_log.dropLast ++ [r.1] }
    if r.1.state = LogItem.State.Resumed then
      let duration := (r.1.endTimeNs + U64 - r.1.startTimeNs) % U64
      let w := t1.setWorkTime ((t1.workTime + duration) % U64)
      (w.1, r.2 ++ w.2)
    else (t1, r.2)

/-- Method `Task::addLog`. -/
def addLog (t : Task) (state : LogItem.State) (time : TimePoint) : Task × List Signal :=
  let c := t.closeBack time
  let t2 : Task := { c.1 with m_log := c.1.m_log ++ [LogItem.ctor state time] }
  let s := t2.setStartTime (match t2.m_log.head? with
    | none => 0
    | some front => front.startTimeNs)
  let e := s.1.setEndTime (match s.1.m_log.getLast? with
    | none => 0
    | some back => back.endTimeNs)
  (e.1, c.2 ++ [Signal.task_logChanged] ++ s.2 ++ e.2)

end Task

/-! ## monitor.h : Monitor and MonitorImpl -/

/-- The class `Monitor`. -/
structure Monitor where
  m_tasks : List Task
  m_startNsTimePoint : Option Nat
  m_totalEndTime : Option TimePoint
  deriving DecidableEq, Repr

/-- Private constructor `TimePoint::TimePoint(Monitor *, uint64_t)` of logitem.cpp:
`m_ns(safeMinus(timestamp, monitor->m_startNsTimePoint.value()))`. -/
def TimePoint.ctor (monitor : Monitor) (timestamp : Nat) : Except Error TimePoint :=
  match monitor.m_startNsTimePoint with
  | none => .error .badOptionalAccess
  | some origin =>
    match safeMinus timestamp origin with
    | .ok n => .ok { m_ns := n }
    | .error err => .error err

namespace Monitor

/-- Constructor `Monitor::Monitor`: no tasks, no origin, no total end time. -/
def ctor : Monitor :=
  { m_tasks := [], m_startNsTimePoint := none, m_totalEndTime := none }

/-- Method `Monitor::totalEndTime`. -/
def totalEndTime (m : Monitor) : Nat :=
  match m.m_totalEndTime with
  | some t => t.ns
  | none => 0

/-- Method `Monitor::setTotalEndTime`. -/
def setTotalEndTime (m : Monitor) (time : TimePoint) : Monitor × List Signal :=
  if m.m_totalEndTime = some time then (m, [])
  else ({ m with m_totalEndTime := some time }, [Signal.monitor_totalEndTimeChanged])

/-- Method `Monitor::addTask`. -/
def addTask (m : Monitor) (data : task_info) (timePoint : Nat) :
    Except Error (Monitor × List Signal) :=
  let m1 : Monitor :=
    match m.m_startNsTimePoint with
    | none => { m with m_startNsTimePoint := some (TimePoint.nsSinceEpoch timePoint) }
    | some _ => m
  match TimePoint.ctor m1 (TimePoint.nsSinceEpoch timePoint) with
  | .error err => .error err
  | .ok startTime =>
    let m2 : Monitor := { m1 with m_tasks := m1.m_tasks ++ [Task.ctor data startTime] }
    match TimePoint.ctor m2 (TimePoint.nsSinceEpoch timePoint) with
    | .error err => .error err
    | .ok time =>
      let r := m2.setTotalEndTime time
      .ok (r.1, r.2 ++ [Signal.monitor_tasksChanged])

/-- Method `Monitor::updateTask`: `std::find_if` for the first task with handle `h`,
then `f(*it)` and `setTotalEndTime((*it)->logList().back()->endTime())`. -/
def updateTask (m : Monitor) (h : Nat) (f : Task → Task × List Signal) :
    Except Error (Monitor × List Signal) :=
  match m.m_tasks.findIdx? (fun t => t.handle == h) with
  | none => .ok (m, [])
  | some it =>
    match m.m_tasks.get? it with
    | none => .ok (m, [])
    | some task =>
      let r := f task
      let m1 : Monitor := { m with m_tasks := m.m_tasks.set it r.1 }
      match r.1.logList.getLast? with
      | none => .error .emptyListBack
      | some back =>
        let s := m1.setTotalEndTime back.endTime
        .ok (s.1, r.2 ++ s.2)

end Monitor

namespace MonitorImpl

/-- Method `MonitorImpl::task_started`. -/
def task_started (m : Monitor) (info : task_info) (now : Nat) :
    Except Error (Monitor × List Signal) :=
  m.addTask info now

/-- The lambda `task_finished` hands to `updateTask`:
`task->markFinished(); task->addLog(LogItem::State::Finished, time);`. -/
def task_finished_lambda (time : TimePoint) (task : Task) : Task × List Signal :=
  let a := task.markFinished
  let b := a.1.addLog LogItem.State.Finished time
  (b.1, a.2 ++ b.2)

/-- The lambda `task_suspended` hands to `updateTask`:
`task->setSuspended(true); task->addLog(LogItem::State::Suspended, time);`. -/
def task_suspended_lambda (time : TimePoint) (task : Task) : Task × List Signal :=
  let a := task.setSuspended true
  let b := a.1.addLog LogItem.State.Suspended time
  (b.1, a.2 ++ b.2)

/-- The lambda `task_resumed` hands to `updateTask`:
`task->setSuspended(false); task->addLog(LogItem::State::Resumed, time);`. -/
def task_resumed_lambda (time : TimePoint) (task : Task) : Task × List Signal :=
  let a := task.setSuspended false
  let b := a.1.addLog LogItem.State.Resumed time
  (b.1, a.2 ++ b.2)

/-- Method `MonitorImpl::task_finished`; the lambda capture `time = TimePoint(this, Clock::now())`
is evaluated before `updateTask` is entered. -/
def task_finished (m : Monitor) (info : task_info) (now : Nat) :
    Except Error (Monitor × List Signal) :=
  match TimePoint.ctor m (TimePoint.nsSinceEpoch now) with
  | .error err => .error err
  | .ok time =>
    m.updateTask info.h (task_finished_lambda time)

/-- Method `MonitorImpl::task_suspended`. -/
def task_suspended (m : Monitor) (info : task_info) (now : Nat) :
    Except Error (Monitor × List Signal) :=
  match TimePoint.ctor m (TimePoint.nsSinceEpoch now) with
  | .error err => .error err
  | .ok time =>
    m.updateTask info.h (task_suspended_lambda time)

/-- Method `MonitorImpl::task_resumed`. -/
def task_resumed (m : Monitor) (info : task_info) (now : Nat) :
    Except Error (Monitor × List Signal) :=
  match TimePoint.ctor m (TimePoint.nsSinceEpoch now) with
  | .error err => .error err
  | .ok time =>
    m.updateTask info.h (task_resumed_lambda time)

end MonitorImpl

/-! ## Notification sequences -/

/-- The four callbacks of `coschedula::scheduler::subscriber` that `MonitorImpl` overrides. -/
inductive Notification where
  | task_started
  | task_finished
  | task_suspended
  | task_resumed
  deriving DecidableEq, Repr

/-- One delivered notification: which callback, its `task_info` argument and the
value `Clock::now()` returns inside it. -/
structure Event where
  kind : Notification
  info : task_info
  now : Nat
  deriving DecidableEq, Repr

namespace MonitorImpl

/-- Dispatch of one notification to the matching override. -/
def deliver (m : Monitor) (ev : Event) : Except Error (Monitor × List Signal) :=
  match ev.kind with
  | Notification.task_started => task_started m ev.info ev.now
  | Notification.task_finished => task_finished m ev.info ev.now
  | Notification.task_suspended => task_suspended m ev.info ev.now
  | Notification.task_resumed => task_resumed m ev.info ev.now

/-- Serial delivery of a sequence of notifications; the first failure ends the run. -/
def run (m : Monitor) : List Event → Except Error Monitor
  | [] => .ok m
  | ev :: rest =>
    match deliver m ev with
    | .error err => .error err
    | .ok r => run r.1 rest

end MonitorImpl

/-- A sequence of `addLog` calls applied to a task, left to right. -/
def Task.records (t : Task) : List (LogItem.State × TimePoint) → Task
  | [] => t
  | c :: rest => Task.records (t.addLog c.1 c.2).1 rest

/-! ## matrix.h -/

/-- The class `Matrix<T>`: `std::array<T, 9> m_data` in row-major order, named by
the accessors `a()` .. `i()`. -/
@[ext]
structure Matrix (T : Type) where
  a : T
  b : T
  c : T
  d : T
  e : T
  f : T
  g : T
  h : T
  i : T
  deriving DecidableEq, Repr

namespace Matrix

variable {T : Type}

/-- Constant `SideLen`. -/
def SideLen : Nat := 3

/-- Indexing `m_data[k]` for `k < 9`. -/
def m_data (m : Matrix T) (k : Nat) : T :=
  match k with
  | 0 => m.a
  | 1 => m.b
  | 2 => m.c
  | 3 => m.d
  | 4 => m.e
  | 5 => m.f
  | 6 => m.g
  | 7 => m.h
  | _ => m.i

/-- Static `Matrix::identity`. -/
def identity [Zero T] [One T] : Matrix T := ⟨1, 0, 0, 0, 1, 0, 0, 0, 1⟩

/-- Static `Matrix::scale(T x, T y)`. -/
def scale [Zero T] [One T] (x y : T) : Matrix T := ⟨x, 0, 0, 0, y, 0, 0, 0, 1⟩

/-- Static `Matrix::scale(T f)`. -/
def scale1 [Zero T] [One T] (f : T) : Matrix T := scale f f

/-- Static `Matrix::translate(T x, T y)`. -/
def translate [Zero T] [One T] (x y : T) : Matrix T := ⟨1, 0, x, 0, 1, y, 0, 0, 1⟩

/-- Static `Matrix::rotate(rotor)`, with the complex rotor given by its real and
imaginary parts. -/
def rotate [Zero T] [One T] [Neg T] (re im : T) : Matrix T := ⟨re, -im, 0, im, re, 0, 0, 0, 1⟩

/-- Accessor `Matrix::scaleX` (`m_data[Indices::ScaleX]`). -/
def scaleX (m : Matrix T) : T := m.m_data 0

/-- Accessor `Matrix::scaleY` (`m_data[Indices::ScaleY]`). -/
def scaleY (m : Matrix T) : T := m.m_data 4

/-- Accessor `Matrix::translation` (`m_data[Indices::TransX]`, `m_data[Indices::TransY]`). -/
def translation (m : Matrix T) : T × T := (m.m_data 2, m.m_data 5)

/-- Product `Matrix::operator*(const Matrix&)`. -/
def mul [Add T] [Mul T] (l r : Matrix T) : Matrix T :=
  { a := l.m_data 0 * r.m_data 0 + l.m_data 1 * r.m_data 3 + l.m_data 2 * r.m_data 6
    b := l.m_data 0 * r.m_data 1 + l.m_data 1 * r.m_data 4 + l.m_data 2 * r.m_data 7
    c := l.m_data 0 * r.m_data 2 + l.m_data 1 * r.m_data 5 + l.m_data 2 * r.m_data 8
    d := l.m_data 3 * r.m_data 0 + l.m_data 4 * r.m_data 3 + l.m_data 5 * r.m_data 6
    e := l.m_data 3 * r.m_data 1 + l.m_data 4 * r.m_data 4 + l.m_data 5 * r.m_data 7
    f := l.m_data 3 * r.m_data 2 + l.m_data 4 * r.m_data 5 + l.m_data 5 * r.m_data 8
    g := l.m_data 6 * r.m_data 0 + l.m_data 7 * r.m_data 3 + l.m_data 8 * r.m_data 6
    h := l.m_data 6 * r.m_data 1 + l.m_data 7 * r.m_data 4 + l.m_data 8 * r.m_data 7
    i := l.m_data 6 * r.m_data 2 + l.m_data 7 * r.m_data 5 + l.m_data 8 * r.m_data 8 }

instance [Add T] [Mul T] : Mul (Matrix T) := ⟨mul⟩

/-- Method `Matrix::transposed`. -/
def transposed (m : Matrix T) : Matrix T :=
  ⟨m.a, m.d, m.g, m.b, m.e, m.h, m.c, m.f, m.i⟩

/-- Template `Matrix::minor<i, j>`: the entries `m_data[x + y * SideLen]` with
`x != i && y != j`, rows `y` outermost, in the order the loops store them. -/
def minor (m : Matrix T) (i j : Nat) : List T :=
  (List.range SideLen).flatMap fun y =>
    (List.range SideLen).filterMap fun x =>
      if x ≠ i ∧ y ≠ j then some (m.m_data (x + y * SideLen)) else none

/-- Static `Matrix::det2x2` on the four stored entries. -/
def det2x2 [Zero T] [Sub T] [Mul T] (data : List T) : T :=
  match data with
  | [a, b, c, d] => a * d - b * c
  | _ => 0

/-- Method `Matrix::det`. -/
def det [Add T] [Sub T] [Mul T] (m : Matrix T) : T :=
  m.a * m.e * m.i + m.b * m.f * m.g + m.c * m.d * m.h - m.c * m.e * m.g - m.b * m.d * m.i
    - m.a * m.f * m.h

/-- Inversion `Matrix::operator~`. -/
def invert [Field T] [DecidableEq T] (m : Matrix T) : Option (Matrix T) :=
  let dd := m.det
  if dd = 0 then none
  else
    let t := m.transposed
    some
      { a := det2x2 (t.minor 0 0) / dd
        b := -det2x2 (t.minor 1 0) / dd
        c := det2x2 (t.minor 2 0) / dd
        d := -det2x2 (t.minor 0 1) / dd
        e := det2x2 (t.minor 1 1) / dd
        f := -det2x2 (t.minor 2 1) / dd
        g := det2x2 (t.minor 0 2) / dd
        h := -det2x2 (t.minor 1 2) / dd
        i := det2x2 (t.minor 2 2) / dd }

/-- Product `Matrix::operator*(const QVector3D &)`: matrix times column vector. -/
def mulVec [Add T] [Mul T] (m : Matrix T) (rhs : T × T × T) : T × T × T :=
  let x := rhs.1
  let y := rhs.2.1
  let z := rhs.2.2
  (m.a * x + m.b * y + m.c * z, m.d * x + m.e * y + m.f * z, m.g * x + m.h * y + m.i * z)

/-- Method `Matrix::applyAffine(const QPointF &)`: the homogeneous product with
`(x, y, 1)` divided by its third component. The source divides unconditionally;
over an exact field the quotient does not exist for a zero third component, which
is the `none` case here. -/
def applyAffine [Field T] [DecidableEq T] (m : Matrix T) (rhs : T × T) : Option (T × T) :=
  let result := m.mulVec (rhs.1, rhs.2, 1)
  if result.2.2 = 0 then none
  else some (result.1 / result.2.2, result.2.1 / result.2.2)

/-- Static `Matrix::translate(const QPointF &)`. -/
def translateP [Zero T] [One T] (offset : T × T) : Matrix T := translate offset.1 offset.2

/-- The same nine entries as a Mathlib matrix (row-major). -/
def toMat3 (m : Matrix T) : Mat3 T :=
  Matrix.of ![![m.a, m.b, m.c], ![m.d, m.e, m.f], ![m.g, m.h, m.i]]

end Matrix

/-! ## monitor.cpp : view-transform helpers -/

/-- Helper `filterAcceptsScale` of monitor.cpp. -/
def filterAcceptsScale {T : Type} [Zero T] [One T] (v : Matrix T) : Matrix T :=
  Matrix.scale v.scaleX v.scaleY

/-- Helper `filterAcceptsTranslation` of monitor.cpp. -/
def filterAcceptsTranslation {T : Type} [Zero T] [One T] (v : Matrix T) : Matrix T :=
  Matrix.translate v.translation.1 v.translation.2

/-- Helper `updateDifferent` of monitor.cpp: the new value of `out` and the
returned flag. -/
def updateDifferent {α : Type} [DecidableEq α] (out val : α) : α × Bool :=
  if out = val then (out, false) else (val, true)

/-- Helper `concatScaleCentered` of monitor.cpp: the new `scaleOutput`, the new
`translationOutput` and the returned flag; `assert(invTranslation)` is the
error case. -/
def concatScaleCentered {T : Type} [Field T] [DecidableEq T]
    (scaleOutput translationOutput : Matrix T) (scaleDivision : T) (center : T × T) :
    Except Error (Matrix T × Matrix T × Bool) :=
  let scaleDivisionMatrix := Matrix.scale1 scaleDivision
  let translation := Matrix.translateP center
  match translation.invert with
  | none => .error .assertionFailed
  | some invTranslation =>
    let output := translation * scaleDivisionMatrix * invTranslation * translationOutput
      * scaleOutput
    let newScaleOutput := filterAcceptsScale output
    let newTranslationOutput := filterAcceptsTranslation output
    let sok := updateDifferent scaleOutput newScaleOutput
    let tok := updateDifferent translationOutput newTranslationOutput
    .ok (sok.1, tok.1, sok.2 || tok.2)

/-- Method `Monitor::scaleAndTrans`: the returned point `(x, y)`. -/
def Monitor.scaleAndTrans {T : Type} [Field T] [DecidableEq T]
    (currentTrans currentScale scaleDivision wheelPos : T) : Except Error (T × T) :=
  let t := Matrix.translate currentTrans currentTrans
  let s := Matrix.scale currentScale currentScale
  let center := (wheelPos, wheelPos)
  match concatScaleCentered s t scaleDivision center with
  | .error err => .error err
  | .ok r => .ok (r.2.1.translation.1, r.1.scaleX)

/-! ## Reference notions used in the statements -/

/-- Reference work time computed from a log: the sum of `end - start` over the
entries that are `Resumed` and closed, i.e. followed by a later entry (every
entry but the last one). -/
def referenceWorkTime (log : List LogItem) : Int :=
  ((log.dropLast.filter fun l => l.state = LogItem.State.Resumed).map
    fun l => (l.endTimeNs : Int) - (l.startTimeNs : Int)).sum

/-- The clock readings of a notification sequence never go back. -/
def nonDecreasingTimes (evs : List Event) : Prop :=
  (evs.map fun ev => ev.now).Pairwise (· ≤ ·)

/-- Handles carried by the `task_started` notifications of a sequence, in order. -/
def startedHandles (evs : List Event) : List Nat :=
  (evs.filter fun ev => ev.kind = Notification.task_started).map fun ev => ev.info.h

/-- Every entry of a log has `end >= start`. -/
def entriesOrdered (log : List LogItem) : Prop :=
  ∀ l ∈ log, l.startTimeNs ≤ l.endTimeNs

/-- The `start` values along a log are non-decreasing. -/
def startsNonDecreasing (log : List LogItem) : Prop :=
  (log.map fun l => l.startTimeNs).Pairwise (· ≤ ·)

/-- Timing invariant of a Monitor whose latest clock reading is at most `T`:
before the first start nothing is recorded; afterwards the origin, the total end
time and every log entry lie at or before `T`, and every log is ordered. -/
def Monitor.wellTimed (m : Monitor) (T : Nat) : Prop :=
  match m.m_startNsTimePoint with
  | none => m.m_tasks = [] ∧ m.m_totalEndTime = none
  | some origin =>
    origin ≤ T ∧ origin + m.totalEndTime ≤ T ∧
    ∀ t ∈ m.m_tasks, entriesOrdered t.m_log ∧ startsNonDecreasing t.m_log ∧
      ∀ l ∈ t.m_log, origin + l.endTimeNs ≤ T

/-- The state each callback writes into the log (`task_started` through the
`Task` constructor, the other three through `addLog`). -/
def Notification.recorded : Notification → LogItem.State
  | Notification.task_started => LogItem.State.Started
  | Notification.task_finished => LogItem.State.Finished
  | Notification.task_suspended => LogItem.State.Suspended
  | Notification.task_resumed => LogItem.State.Resumed

/-- The total end time is at least the end time of every task and the end of
every log entry. -/
def Monitor.totalCovers (m : Monitor) : Prop :=
  ∀ t ∈ m.m_tasks, t.endTime ≤ m.totalEndTime ∧ ∀ l ∈ t.m_log, l.endTimeNs ≤ m.totalEndTime

/-- Transitions the specification allows between consecutive log entries:
`Started` to `Suspended` or `Finished`, `Suspended` to `Resumed` or `Finished`,
`Resumed` to `Suspended` or `Finished`; nothing after `Finished`. -/
def allowedTransition : LogItem.State → LogItem.State → Bool
  | LogItem.State.Started, LogItem.State.Suspended => true
  | LogItem.State.Started, LogItem.State.Finished => true
  | LogItem.State.Suspended, LogItem.State.Resumed => true
  | LogItem.State.Suspended, LogItem.State.Finished => true
  | LogItem.State.Resumed, LogItem.State.Suspended => true
  | LogItem.State.Resumed, LogItem.State.Finished => true
  | _, _ => false

/-- Every pair of consecutive states of a log is an allowed transition. -/
def allowedLog (states : List LogItem.State) : Prop :=
  List.Chain' (fun a b => allowedTransition a b = true) states

/-- Consecutive entries of a log meet: each entry ends where the next one starts. -/
def contiguous (log : List LogItem) : Prop :=
  List.Chain' (fun a b => a.endTime = b.startTime) log

/-- The 64-bit arithmetic of one `addLog` call is exact: when the entry being
closed is `Resumed`, the subtraction `endTimeNs() - startTimeNs()` does not
underflow and the addition to the work time does not wrap. -/
def Task.addLogExact (t : Task) (time : TimePoint) : Prop :=
  match t.m_log.getLast? with
  | none => True
  | some back =>
    back.state = LogItem.State.Resumed →
      back.startTimeNs ≤ time.ns ∧ t.workTime + (time.ns - back.startTimeNs) < U64

/-- Every `addLog` call of a sequence is exact in the sense of `addLogExact`. -/
def Task.recordsExact (t : Task) : List (LogItem.State × TimePoint) → Prop
  | [] => True
  | c :: rest => t.addLogExact c.2 ∧ Task.recordsExact (t.addLog c.1 c.2).1 rest

/-- The notification is an allowed successor of the last entry of the Task it
will be recorded in (the first Task with its handle); vacuous for
`task_started` and for a handle without a Task. -/
def MonitorImpl.allowedNext (m : Monitor) (ev : Event) : Prop :=
  ev.kind ≠ Notification.task_started →
    ∀ (it : Nat) (task : Task) (last : LogItem),
      m.m_tasks.findIdx? (fun t => t.handle == ev.info.h) = some it →
      m.m_tasks.get? it = some task → task.logList.getLast? = some last →
      allowedTransition last.state ev.kind.recorded = true

/-- Every notification of the sequence is an allowed successor at the moment it
is delivered. -/
def MonitorImpl.orderly : Monitor → List Event → Prop
  | _, [] => True
  | m, ev :: rest =>
    MonitorImpl.allowedNext m ev ∧
      ∀ r, MonitorImpl.deliver m ev = .ok r → MonitorImpl.orderly r.1 rest

/-! ## Sample inputs -/

/-- The task of the scenario: handle 1, created in function `f`, no dependency. -/
def sampleInfoF : task_info := { h := 1, suspended := false, loc := "f", dep := none }

/-- A second task: handle 2, created in function `g`. -/
def sampleInfoG : task_info := { h := 2, suspended := false, loc := "g", dep := none }

/-- Start, suspend, resume and finish of one task at clock readings 100, 110, 115, 125. -/
def sampleLifecycle : List Event :=
  [⟨Notification.task_started, sampleInfoF, 100⟩, ⟨Notification.task_suspended, sampleInfoF, 110⟩,
   ⟨Notification.task_resumed, sampleInfoF, 115⟩, ⟨Notification.task_finished, sampleInfoF, 125⟩]

/-- Two tasks started at clock readings 100 and 110. -/
def sampleTwoStarts : List Event :=
  [⟨Notification.task_started, sampleInfoF, 100⟩, ⟨Notification.task_started, sampleInfoG, 110⟩]

/-- The Task that `sampleLifecycle` leaves behind: its last entry is `Finished`. -/
def sampleFinishedTask : Task :=
  { m_handle := 1
    m_suspended := false
    m_location := "f"
    m_dep := none
    m_finished := true
    m_log :=
      [⟨LogItem.State.Started, ⟨0⟩, ⟨10⟩⟩, ⟨LogItem.State.Suspended, ⟨10⟩, ⟨15⟩⟩,
       ⟨LogItem.State.Resumed, ⟨15⟩, ⟨25⟩⟩] ++ [⟨LogItem.State.Finished, ⟨25⟩, ⟨25⟩⟩]
    m_startTime := 0
    m_endTime := 25
    m_workTime := 10 }

/-- The Monitor that `sampleLifecycle` leaves behind. -/
def sampleFinishedMonitor : Monitor :=
  { m_tasks := [sampleFinishedTask], m_startNsTimePoint := some 100, m_totalEndTime := some ⟨25⟩ }

/-- The Monitor that `sampleTwoStarts` leaves behind. -/
def sampleTwoStartsMonitor : Monitor :=
  { m_tasks := [Task.ctor sampleInfoF ⟨0⟩, Task.ctor sampleInfoG ⟨10⟩]
    m_startNsTimePoint := some 100
    m_totalEndTime := some ⟨10⟩ }

end CoschedulaMonitor

/-! # Theorems -/

/-! ## Setters and `addLog` -/

namespace CoschedulaMonitor

theorem logItem_setEndTime_fst (l : LogItem) (time : TimePoint) :
    (l.setEndTime time).1 = { l with m_endTime := time } := by
  unfold LogItem.setEndTime
  split_ifs with h
  · cases l; cases h; rfl
  · rfl

namespace Task

theorem setWorkTime_fst (t : Task) (n : Nat) : (t.setWorkTime n).1 = { t with m_workTime := n } := by
  unfold setWorkTime
  split_ifs with h
  · cases t; cases h; rfl
  · rfl

theorem setStartTime_fst (t : Task) (n : Nat) :
    (t.setStartTime n).1 = { t with m_startTime := n } := by
  unfold setStartTime
  split_ifs with h
  · cases t; cases h; rfl
  · rfl

theorem setEndTime_fst (t : Task) (n : Nat) : (t.setEndTime n).1 = { t with m_endTime := n } := by
  unfold setEndTime
  split_ifs with h
  · cases t; cases h; rfl
  · rfl

theorem setSuspended_fst (t : Task) (s : Bool) :
    (t.setSuspended s).1 = { t with m_suspended := s } := by
  unfold setSuspended
  split_ifs with h
  · cases t; cases h; rfl
  · rfl

theorem markFinished_fst (t : Task) : (t.markFinished).1 = { t with m_finished := true } := by
  unfold markFinished
  split_ifs with h
  · cases t; cases h; rfl
  · rfl

/-- State reached by the closing block of `addLog` on a non-empty log. -/
theorem closeBack_fst_concat (t : Task) (time : TimePoint) (init : List LogItem) (back : LogItem)
    (h : t.m_log = init ++ [back]) :
    (t.closeBack time).1 =
      { t with
        m_log := init ++ [{ back with m_endTime := time }]
        m_workTime :=
          if back.m_state = LogItem.State.Resumed then
            (t.m_workTime + (time.ns + U64 - back.m_startTime.ns) % U64) % U64
          else t.m_workTime } := by
  unfold closeBack
  rw [h, List.getLast?_concat]
  simp only [logItem_setEndTime_fst, setWorkTime_fst, List.dropLast_concat, LogItem.state,
    LogItem.endTimeNs, LogItem.startTimeNs, workTime]
  split_ifs <;> rfl

theorem closeBack_fst_nil (t : Task) (time : TimePoint) (h : t.m_log = []) :
    (t.closeBack time).1 = t := by
  unfold closeBack
  rw [h]
  rfl

/-- State reached by `addLog` on a non-empty log. -/
theorem addLog_fst_concat (t : Task) (state : LogItem.State) (time : TimePoint)
    (init : List LogItem) (back : LogItem) (h : t.m_log = init ++ [back]) :
    (t.addLog state time).1 =
      { t with
        m_log := init ++ [{ back with m_endTime := time }, LogItem.ctor state time]
        m_workTime :=
          if back.m_state = LogItem.State.Resumed then
            (t.m_workTime + (time.ns + U64 - back.m_startTime.ns) % U64) % U64
          else t.m_workTime
        m_startTime :=
          match (init ++ [back]).head? with
          | none => 0
          | some front => front.startTimeNs
        m_endTime := time.ns } := by
  have hl : ∀ x y : LogItem, (init ++ [x] ++ [y]).getLast? = some y :=
    fun x y => List.getLast?_concat (init ++ [x])
  unfold addLog
  simp only [setEndTime_fst, setStartTime_fst, closeBack_fst_concat t time init back h, hl]
  cases init with
  | nil => simp [LogItem.startTimeNs, LogItem.endTimeNs, LogItem.ctor]
  | cons x xs => simp [LogItem.startTimeNs, LogItem.endTimeNs, LogItem.ctor]

/-- State reached by `addLog` on an empty log. -/
theorem addLog_fst_nil (t : Task) (state : LogItem.State) (time : TimePoint) (h : t.m_log = []) :
    (t.addLog state time).1 =
      { t with
        m_log := [LogItem.ctor state time]
        m_startTime := time.ns
        m_endTime := time.ns } := by
  unfold addLog
  simp only [setEndTime_fst, setStartTime_fst, closeBack_fst_nil t time h]
  simp [h, LogItem.startTimeNs, LogItem.endTimeNs, LogItem.ctor]

end Task
end CoschedulaMonitor

/-! ## Matrix algebra -/

namespace CoschedulaMonitor
namespace Matrix
variable {T : Type}

theorem invert_eq [Field T] [DecidableEq T] (m : Matrix T) :
    m.invert = if m.det = 0 then none else some
      { a := (m.e * m.i - m.h * m.f) / m.det
        b := -(m.b * m.i - m.h * m.c) / m.det
        c := (m.b * m.f - m.e * m.c) / m.det
        d := -(m.d * m.i - m.g * m.f) / m.det
        e := (m.a * m.i - m.g * m.c) / m.det
        f := -(m.a * m.f - m.d * m.c) / m.det
        g := (m.d * m.h - m.g * m.e) / m.det
        h := -(m.a * m.h - m.g * m.b) / m.det
        i := (m.a * m.e - m.d * m.b) / m.det } := by
  rfl

theorem mul_eq [Add T] [Mul T] (l r : Matrix T) :
    l * r =
      { a := l.a * r.a + l.b * r.d + l.c * r.g
        b := l.a * r.b + l.b * r.e + l.c * r.h
        c := l.a * r.c + l.b * r.f + l.c * r.i
        d := l.d * r.a + l.e * r.d + l.f * r.g
        e := l.d * r.b + l.e * r.e + l.f * r.h
        f := l.d * r.c + l.e * r.f + l.f * r.i
        g := l.g * r.a + l.h * r.d + l.i * r.g
        h := l.g * r.b + l.h * r.e + l.i * r.h
        i := l.g * r.c + l.h * r.f + l.i * r.i } := rfl

theorem mul_assoc_aux [CommRing T] (x y z : Matrix T) : x * y * z = x * (y * z) := by
  simp only [mul_eq]
  ext <;> simp only <;> ring

theorem identity_mul_aux [CommRing T] (x : Matrix T) : identity * x = x := by
  simp only [mul_eq, identity]
  ext <;> simp

theorem mul_identity_aux [CommRing T] (x : Matrix T) : x * identity = x := by
  simp only [mul_eq, identity]
  ext <;> simp

theorem det_mul_aux [CommRing T] (x y : Matrix T) : (x * y).det = x.det * y.det := by
  simp only [mul_eq, det]
  ring

theorem det_identity_aux [CommRing T] : (identity : Matrix T).det = 1 := by
  simp [identity, det]

theorem toMat3_det [CommRing T] (m : Matrix T) : m.toMat3.det = m.det := by
  simp only [toMat3, det, Matrix.det_fin_three]
  simp
  ring

/-- The inverse returned for a non-singular matrix is a two-sided inverse. -/
theorem invert_spec_aux [Field T] [DecidableEq T] (m : Matrix T) (h : m.det ≠ 0) :
    ∃ n, m.invert = some n ∧ m * n = identity ∧ n * m = identity := by
  refine ⟨_, by rw [invert_eq, if_neg h], ?_, ?_⟩
  · simp only [mul_eq, identity]
    have hd := h
    simp only [det] at hd
    ext <;> simp only [det] <;> field_simp <;> ring
  · simp only [mul_eq, identity]
    have hd := h
    simp only [det] at hd
    ext <;> simp only [det] <;> field_simp <;> ring

end Matrix
end CoschedulaMonitor

/-! ## Matrix inversion (C8, C9, C10) -/

namespace CoschedulaMonitor
namespace Matrix
variable {T : Type}

theorem toMat3_invert_aux [Field T] [DecidableEq T] (m n : Matrix T) (h : m.det ≠ 0)
    (hn : m.invert = some n) :
    n.toMat3 = (m.toMat3.det)⁻¹ • m.toMat3.adjugate := by
  rw [invert_eq, if_neg h] at hn
  have hn2 := (Option.some.inj hn).symm
  rw [toMat3_det]
  subst hn2
  simp only [toMat3, Matrix.adjugate_fin_three]
  ext r s
  fin_cases r <;> fin_cases s <;> simp <;> field_simp <;> ring

/-- C8. Over the rationals, for every matrix `M` with `det(M) != 0`, `operator~`
returns a matrix `N` with `M * N == identity()` and `N * M == identity()`, and `N`
is the adjugate of `M` divided by the determinant of `M`. -/
theorem invert_is_two_sided_inverse (M : Matrix ℚ) (h : M.det ≠ 0) :
    ∃ N : Matrix ℚ, M.invert = some N ∧ M * N = identity ∧ N * M = identity ∧
      N.toMat3 = (M.toMat3.det)⁻¹ • M.toMat3.adjugate ∧ M.toMat3.det = M.det := by
  obtain ⟨N, hN, h1, h2⟩ := invert_spec_aux M h
  exact ⟨N, hN, h1, h2, toMat3_invert_aux M N h hN, toMat3_det M⟩

theorem invert_is_two_sided_inverse_witness :
    (⟨1, 2, 3, 4, 5, 6, 7, 8, 10⟩ : Matrix ℚ).det ≠ 0 ∧
    ∃ N : Matrix ℚ, (⟨1, 2, 3, 4, 5, 6, 7, 8, 10⟩ : Matrix ℚ).invert = some N ∧
      (⟨1, 2, 3, 4, 5, 6, 7, 8, 10⟩ : Matrix ℚ) * N = identity ∧
      N * (⟨1, 2, 3, 4, 5, 6, 7, 8, 10⟩ : Matrix ℚ) = identity ∧
      N.toMat3 = ((⟨1, 2, 3, 4, 5, 6, 7, 8, 10⟩ : Matrix ℚ).toMat3.det)⁻¹ •
        (⟨1, 2, 3, 4, 5, 6, 7, 8, 10⟩ : Matrix ℚ).toMat3.adjugate ∧
      (⟨1, 2, 3, 4, 5, 6, 7, 8, 10⟩ : Matrix ℚ).toMat3.det =
        (⟨1, 2, 3, 4, 5, 6, 7, 8, 10⟩ : Matrix ℚ).det :=
  ⟨by norm_num [det], invert_is_two_sided_inverse _ (by norm_num [det])⟩

/-- C9. For every matrix `M` over the rationals, `operator~` returns `nullopt`
exactly when `det(M) == 0`; in particular `scale(0, y)` and `scale(x, 0)` have no
inverse for any `x`, `y`. -/
theorem invert_none_iff_det_zero :
    (∀ M : Matrix ℚ, M.invert = none ↔ M.det = 0) ∧
    (∀ x y : ℚ, (scale 0 y).invert = none ∧ (scale x 0).invert = none) := by
  constructor
  · intro M
    rw [invert_eq]
    by_cases h : M.det = 0
    · simp [h]
    · simp [h]
  · intro x y
    constructor
    · rw [invert_eq, if_pos]
      simp [scale, det]
    · rw [invert_eq, if_pos]
      simp [scale, det]

/-- C10. Over the rationals, for every `M` with `det(M) != 0`, `~M` is some `N`,
`det(N) != 0`, and `~N` is exactly `M`. -/
theorem invert_invert (M : Matrix ℚ) (h : M.det ≠ 0) :
    ∃ N : Matrix ℚ, M.invert = some N ∧ N.det ≠ 0 ∧ N.invert = some M := by
  obtain ⟨N, hN, h1, h2⟩ := invert_spec_aux M h
  have hdet : M.det * N.det = 1 := by
    rw [← det_mul_aux, h1, det_identity_aux]
  have hN0 : N.det ≠ 0 := right_ne_zero_of_mul_eq_one hdet
  obtain ⟨P, hP, h3, _⟩ := invert_spec_aux N hN0
  refine ⟨N, hN, hN0, ?_⟩
  have hPM : P = M := by
    calc P = identity * P := (identity_mul_aux P).symm
      _ = (M * N) * P := by rw [h1]
      _ = M * (N * P) := mul_assoc_aux M N P
      _ = M * identity := by rw [h3]
      _ = M := mul_identity_aux M
  rw [hP, hPM]

theorem invert_invert_witness :
    (⟨1, 2, 3, 4, 5, 6, 7, 8, 10⟩ : Matrix ℚ).det ≠ 0 ∧
    ∃ N : Matrix ℚ, (⟨1, 2, 3, 4, 5, 6, 7, 8, 10⟩ : Matrix ℚ).invert = some N ∧ N.det ≠ 0 ∧
      N.invert = some (⟨1, 2, 3, 4, 5, 6, 7, 8, 10⟩ : Matrix ℚ) :=
  ⟨by norm_num [det], invert_invert _ (by norm_num [det])⟩

end Matrix
end CoschedulaMonitor

/-! ## Scenario (C1) -/

namespace CoschedulaMonitor

/-- C1. On a fresh Monitor, for one handle (`h = 1`, `loc = "f"`, no dependency,
either initial suspended flag): `task_started` at t=0 gives the log
`[Started@(0,0)]`; `task_suspended` at t=10 gives `[Started@(0,10), Suspended@(10,10)]`;
`task_resumed` at t=15 appends `Resumed@(15,15)` and leaves the work time 0;
`task_finished` at t=25 closes the Resumed entry to `(15,25)`, makes the work
time 10 and sets the finished flag. -/
theorem scenario_started_suspended_resumed_finished (susp : Bool) :
    ∃ r1 r2 r3 r4 : Monitor × List Signal,
      MonitorImpl.task_started Monitor.ctor ⟨1, susp, "f", none⟩ 0 = .ok r1 ∧
      r1.1.m_tasks.map Task.logList = [[⟨.Started, ⟨0⟩, ⟨0⟩⟩]] ∧
      MonitorImpl.task_suspended r1.1 ⟨1, susp, "f", none⟩ 10 = .ok r2 ∧
      r2.1.m_tasks.map Task.logList = [[⟨.Started, ⟨0⟩, ⟨10⟩⟩, ⟨.Suspended, ⟨10⟩, ⟨10⟩⟩]] ∧
      MonitorImpl.task_resumed r2.1 ⟨1, susp, "f", none⟩ 15 = .ok r3 ∧
      r3.1.m_tasks.map Task.logList =
        [[⟨.Started, ⟨0⟩, ⟨10⟩⟩, ⟨.Suspended, ⟨10⟩, ⟨15⟩⟩, ⟨.Resumed, ⟨15⟩, ⟨15⟩⟩]] ∧
      r3.1.m_tasks.map Task.workTime = [0] ∧
      MonitorImpl.task_finished r3.1 ⟨1, susp, "f", none⟩ 25 = .ok r4 ∧
      r4.1.m_tasks.map Task.logList =
        [[⟨.Started, ⟨0⟩, ⟨10⟩⟩, ⟨.Suspended, ⟨10⟩, ⟨15⟩⟩, ⟨.Resumed, ⟨15⟩, ⟨25⟩⟩,
          ⟨.Finished, ⟨25⟩, ⟨25⟩⟩]] ∧
      r4.1.m_tasks.map Task.workTime = [10] ∧
      r4.1.m_tasks.map (fun t => t.m_finished) = [true] := by
  cases susp
  · exact ⟨_, _, _, _, rfl, rfl, rfl, rfl, rfl, rfl, rfl, rfl, rfl, rfl, rfl⟩
  · exact ⟨_, _, _, _, rfl, rfl, rfl, rfl, rfl, rfl, rfl, rfl, rfl, rfl, rfl⟩

end CoschedulaMonitor

/-! ## Work time against the reference sum (C2) -/

namespace CoschedulaMonitor

theorem referenceWorkTime_concat (init : List LogItem) (back : LogItem) :
    referenceWorkTime (init ++ [back]) =
      ((init.filter fun l => l.state = LogItem.State.Resumed).map
        fun l => (l.endTimeNs : Int) - (l.startTimeNs : Int)).sum := by
  simp [referenceWorkTime]

theorem referenceWorkTime_concat_concat (init : List LogItem) (x y : LogItem) :
    referenceWorkTime (init ++ [x, y]) =
      referenceWorkTime (init ++ [x]) +
        (if x.m_state = LogItem.State.Resumed then (x.endTimeNs : Int) - (x.startTimeNs : Int)
         else 0) := by
  have h : init ++ [x, y] = (init ++ [x]) ++ [y] := by simp
  rw [h, referenceWorkTime_concat, referenceWorkTime_concat, List.filter_append, List.map_append,
    List.sum_append]
  by_cases hx : x.m_state = LogItem.State.Resumed <;> simp [hx, LogItem.state]

theorem u64_sub_of_le (a b : Nat) (hab : b ≤ a) (ha : a < U64) : (a + U64 - b) % U64 = a - b := by
  unfold U64 at *
  omega

/-- Induction behind C2: the work time tracks the reference sum along any
sequence of `addLog` calls whose times are non-decreasing and at least `lo`. -/
theorem records_workTime_aux (calls : List (LogItem.State × TimePoint)) :
    ∀ (t : Task) (init : List LogItem) (back : LogItem) (lo : Nat),
      t.m_log = init ++ [back] →
      (t.m_workTime : Int) = referenceWorkTime t.m_log →
      t.m_workTime ≤ lo →
      (back.m_state = LogItem.State.Resumed →
        t.m_workTime ≤ back.m_startTime.ns ∧ back.m_startTime.ns ≤ lo) →
      (∀ c ∈ calls, lo ≤ c.2.ns ∧ c.2.ns < U64) →
      (calls.map fun c => c.2.ns).Pairwise (· ≤ ·) →
      ((t.records calls).m_workTime : Int) = referenceWorkTime (t.records calls).m_log := by
  induction calls with
  | nil => intro t init back lo _ hw _ _ _ _; exact hw
  | cons c rest ih =>
    intro t init back lo hlog hw hlo hres hb hp
    have hc := hb c (List.mem_cons_self _ _)
    simp only [List.map_cons, List.pairwise_cons] at hp
    simp only [Task.records]
    have hst := Task.addLog_fst_concat t c.1 c.2 init back hlog
    refine ih (t.addLog c.1 c.2).1 (init ++ [{ back with m_endTime := c.2 }])
      (LogItem.ctor c.1 c.2) c.2.ns ?_ ?_ ?_ ?_ ?_ hp.2
    · rw [hst]; simp
    · rw [hst]
      simp only
      rw [referenceWorkTime_concat_concat]
      have h0 : referenceWorkTime (init ++ [{ back with m_endTime := c.2 }]) =
          referenceWorkTime (init ++ [back]) := by
        rw [referenceWorkTime_concat, referenceWorkTime_concat]
      rw [h0, ← hlog, ← hw]
      by_cases hr : back.m_state = LogItem.State.Resumed
      · obtain ⟨h1, h2⟩ := hres hr
        have hle : back.m_startTime.ns ≤ c.2.ns := le_trans h2 hc.1
        rw [if_pos hr, if_pos hr, u64_sub_of_le _ _ hle hc.2]
        have hlt : t.m_workTime + (c.2.ns - back.m_startTime.ns) < U64 := by
          have := hc.2
          omega
        rw [Nat.mod_eq_of_lt hlt]
        simp only [LogItem.endTimeNs, LogItem.startTimeNs]
        push_cast [hle]
        ring
      · rw [if_neg hr, if_neg hr]; simp
    · rw [hst]
      simp only
      by_cases hr : back.m_state = LogItem.State.Resumed
      · obtain ⟨h1, h2⟩ := hres hr
        have hle : back.m_startTime.ns ≤ c.2.ns := le_trans h2 hc.1
        rw [if_pos hr, u64_sub_of_le _ _ hle hc.2]
        have := hc.2
        have hlt : t.m_workTime + (c.2.ns - back.m_startTime.ns) < U64 := by omega
        rw [Nat.mod_eq_of_lt hlt]
        omega
      · rw [if_neg hr]; exact le_trans hlo hc.1
    · intro _
      simp only [LogItem.ctor]
      refine ⟨?_, le_refl _⟩
      rw [hst]
      simp only
      by_cases hr : back.m_state = LogItem.State.Resumed
      · obtain ⟨h1, h2⟩ := hres hr
        have hle : back.m_startTime.ns ≤ c.2.ns := le_trans h2 hc.1
        rw [if_pos hr, u64_sub_of_le _ _ hle hc.2]
        have := hc.2
        have hlt : t.m_workTime + (c.2.ns - back.m_startTime.ns) < U64 := by omega
        rw [Nat.mod_eq_of_lt hlt]
        omega
      · rw [if_neg hr]; exact le_trans hlo hc.1
    · intro c2 hc2
      exact ⟨hp.1 c2.2.ns (List.mem_map.mpr ⟨c2, hc2, rfl⟩), (hb c2 (List.mem_cons_of_mem _ hc2)).2⟩

/-- C2. For every task (as created by the constructor) and every sequence of
`addLog` calls whose observation times are non-decreasing 64-bit values, the
work time equals the reference sum of `end - start` over the entries of the
final log that are `Resumed` and closed by a later entry. -/
theorem workTime_eq_reference_sum (data : task_info) (startTime : TimePoint)
    (calls : List (LogItem.State × TimePoint))
    (hmono : (calls.map fun c => c.2.ns).Pairwise (· ≤ ·))
    (hu64 : ∀ c ∈ calls, c.2.ns < U64) :
    (((Task.ctor data startTime).records calls).workTime : Int) =
      referenceWorkTime ((Task.ctor data startTime).records calls).logList := by
  refine records_workTime_aux calls (Task.ctor data startTime) []
    (LogItem.ctor LogItem.State.Started startTime) 0 rfl ?_ (Nat.le_refl _) ?_ ?_ hmono
  · simp [Task.ctor, referenceWorkTime]
  · intro h; simp [LogItem.ctor] at h
  · intro c hc; exact ⟨Nat.zero_le _, hu64 c hc⟩

theorem workTime_eq_reference_sum_witness :
    (([(LogItem.State.Suspended, (⟨10⟩ : TimePoint)), (LogItem.State.Resumed, ⟨15⟩),
        (LogItem.State.Finished, ⟨25⟩)].map fun c => c.2.ns).Pairwise (· ≤ ·)) ∧
    (((Task.ctor ⟨1, false, "f", none⟩ ⟨0⟩).records
        [(LogItem.State.Suspended, ⟨10⟩), (LogItem.State.Resumed, ⟨15⟩),
          (LogItem.State.Finished, ⟨25⟩)]).workTime : Int) =
      referenceWorkTime ((Task.ctor ⟨1, false, "f", none⟩ ⟨0⟩).records
        [(LogItem.State.Suspended, ⟨10⟩), (LogItem.State.Resumed, ⟨15⟩),
          (LogItem.State.Finished, ⟨25⟩)]).logList :=
  ⟨by decide, workTime_eq_reference_sum ⟨1, false, "f", none⟩ ⟨0⟩ _ (by decide)
    (by simp [TimePoint.ns, U64])⟩

end CoschedulaMonitor

/-! ## Monitor: effect of one notification -/

namespace CoschedulaMonitor

theorem timePoint_ctor_ok (m : Monitor) (now : Nat) (tp : TimePoint)
    (h : TimePoint.ctor m now = .ok tp) :
    ∃ o, m.m_startNsTimePoint = some o ∧ o ≤ now ∧ tp = ⟨now - o⟩ := by
  unfold TimePoint.ctor at h
  cases ho : m.m_startNsTimePoint with
  | none => rw [ho] at h; cases h
  | some o =>
    rw [ho] at h
    simp only [safeMinus] at h
    by_cases hle : now ≥ o
    · rw [if_pos hle] at h
      cases h
      exact ⟨o, rfl, hle, rfl⟩
    · rw [if_neg hle] at h
      cases h

theorem timePoint_ctor_of_le (m : Monitor) (now o : Nat) (ho : m.m_startNsTimePoint = some o)
    (hle : o ≤ now) : TimePoint.ctor m now = .ok ⟨now - o⟩ := by
  unfold TimePoint.ctor
  rw [ho]
  simp only [safeMinus]
  rw [if_pos hle]

theorem setTotalEndTime_fst (m : Monitor) (time : TimePoint) :
    (m.setTotalEndTime time).1 = { m with m_totalEndTime := some time } := by
  unfold Monitor.setTotalEndTime
  split_ifs with h
  · cases m; cases h; rfl
  · rfl

/-- What a successful `addTask` leaves behind. -/
theorem addTask_ok (m : Monitor) (data : task_info) (now : Nat) (r : Monitor × List Signal)
    (h : m.addTask data now = .ok r) :
    ∃ o, (m.m_startNsTimePoint = some o ∨ (m.m_startNsTimePoint = none ∧ o = now)) ∧ o ≤ now ∧
      r.1 = { m_tasks := m.m_tasks ++ [Task.ctor data ⟨now - o⟩]
              m_startNsTimePoint := some o
              m_totalEndTime := some ⟨now - o⟩ } := by
  unfold Monitor.addTask at h
  simp only [TimePoint.nsSinceEpoch] at h
  cases ho : m.m_startNsTimePoint with
  | none =>
    rw [ho] at h
    simp only [TimePoint.ctor, safeMinus, ge_iff_le, le_refl, if_true, Nat.sub_self] at h
    cases h
    exact ⟨now, Or.inr ⟨rfl, rfl⟩, le_refl _, by simp [setTotalEndTime_fst, ho]⟩
  | some o =>
    rw [ho] at h
    simp only [TimePoint.ctor, safeMinus, ho] at h
    by_cases hle : now ≥ o
    · simp only [if_pos hle] at h
      cases h
      exact ⟨o, Or.inl rfl, hle, by simp [setTotalEndTime_fst, ho]⟩
    · simp only [if_neg hle] at h
      cases h

theorem updateTask_none (m : Monitor) (h : Nat) (f : Task → Task × List Signal)
    (hn : m.m_tasks.findIdx? (fun t => t.handle == h) = none) :
    m.updateTask h f = .ok (m, []) := by
  unfold Monitor.updateTask
  rw [hn]

theorem findIdx_some_get (m : Monitor) (h it : Nat)
    (hs : m.m_tasks.findIdx? (fun t => t.handle == h) = some it) :
    ∃ task, m.m_tasks.get? it = some task ∧ task.m_handle = h := by
  have := List.findIdx?_of_eq_some hs
  cases hg : m.m_tasks[it]? with
  | none => rw [hg] at this; simp at this
  | some task =>
    rw [hg] at this
    refine ⟨task, by simpa using hg, ?_⟩
    simpa [Task.handle] using this

theorem updateTask_some (m : Monitor) (h it : Nat) (f : Task → Task × List Signal) (task : Task)
    (back : LogItem)
    (hs : m.m_tasks.findIdx? (fun t => t.handle == h) = some it)
    (hg : m.m_tasks.get? it = some task)
    (hb : (f task).1.m_log.getLast? = some back) :
    ∃ sig, m.updateTask h f =
      .ok ({ m with m_tasks := m.m_tasks.set it (f task).1
                    m_totalEndTime := some back.m_endTime }, sig) := by
  unfold Monitor.updateTask
  rw [hs]
  simp only [hg, Task.logList, hb, setTotalEndTime_fst, LogItem.endTime]
  exact ⟨_, rfl⟩

theorem getLast?_append_pair (init : List LogItem) (x y : LogItem) :
    (init ++ [x, y]).getLast? = some y := by
  rw [show init ++ [x, y] = init ++ [x] ++ [y] by simp]
  exact List.getLast?_concat _

namespace Task

theorem addLog_getLast (t : Task) (state : LogItem.State) (time : TimePoint) :
    (t.addLog state time).1.m_log.getLast? = some (LogItem.ctor state time) := by
  rcases List.eq_nil_or_concat t.m_log with h | ⟨init, back, h⟩
  · rw [addLog_fst_nil t state time h]; rfl
  · rw [List.concat_eq_append] at h
    rw [addLog_fst_concat t state time init back h]
    exact getLast?_append_pair init _ _

theorem addLog_frame (t : Task) (state : LogItem.State) (time : TimePoint) :
    (t.addLog state time).1.m_handle = t.m_handle ∧
    (t.addLog state time).1.m_suspended = t.m_suspended ∧
    (t.addLog state time).1.m_location = t.m_location ∧
    (t.addLog state time).1.m_dep = t.m_dep ∧
    (t.addLog state time).1.m_finished = t.m_finished ∧
    (t.addLog state time).1.m_endTime = time.ns := by
  rcases List.eq_nil_or_concat t.m_log with h | ⟨init, back, h⟩
  · rw [addLog_fst_nil t state time h]; simp
  · rw [List.concat_eq_append] at h
    rw [addLog_fst_concat t state time init back h]; simp

end Task

/-- The three update callbacks share one shape: build the time point, then
`updateTask` with a function that first touches a flag and then calls `addLog`. -/
theorem deliver_update_cases (m : Monitor) (ev : Event) (r : Monitor × List Signal)
    (hk : ev.kind ≠ Notification.task_started) (h : MonitorImpl.deliver m ev = .ok r) :
    ∃ tp, TimePoint.ctor m ev.now = .ok tp ∧
      ((m.m_tasks.findIdx? (fun t => t.handle == ev.info.h) = none ∧ r = (m, [])) ∨
       ∃ (it : Nat) (task pre : Task) (s : LogItem.State), m.m_tasks.findIdx? (fun t => t.handle == ev.info.h) = some it ∧
          m.m_tasks.get? it = some task ∧ task.m_handle = ev.info.h ∧
          pre.m_log = task.m_log ∧ pre.m_handle = task.m_handle ∧
          pre.m_workTime = task.m_workTime ∧
          r.1 = { m with m_tasks := m.m_tasks.set it (pre.addLog s tp).1
                         m_totalEndTime := some tp }) := by
  obtain ⟨kind, info, now⟩ := ev
  have key : ∀ (f : TimePoint → Task → Task × List Signal),
      (∀ tp task, ∃ (pre : Task) (s : LogItem.State), pre.m_log = task.m_log ∧ pre.m_handle = task.m_handle ∧
        pre.m_workTime = task.m_workTime ∧ (f tp task).1 = (pre.addLog s tp).1) →
      (match TimePoint.ctor m (TimePoint.nsSinceEpoch now) with
        | .error err => .error err
        | .ok time => m.updateTask info.h (f time)) = Except.ok r →
      ∃ tp, TimePoint.ctor m now = .ok tp ∧
      ((m.m_tasks.findIdx? (fun t => t.handle == info.h) = none ∧ r = (m, [])) ∨
       ∃ (it : Nat) (task pre : Task) (s : LogItem.State), m.m_tasks.findIdx? (fun t => t.handle == info.h) = some it ∧
          m.m_tasks.get? it = some task ∧ task.m_handle = info.h ∧
          pre.m_log = task.m_log ∧ pre.m_handle = task.m_handle ∧
          pre.m_workTime = task.m_workTime ∧
          r.1 = { m with m_tasks := m.m_tasks.set it (pre.addLog s tp).1
                         m_totalEndTime := some tp }) := by
    intro f hf hr
    simp only [TimePoint.nsSinceEpoch] at hr
    cases htp : TimePoint.ctor m now with
    | error err => rw [htp] at hr; cases hr
    | ok tp =>
      rw [htp] at hr
      simp only at hr
      refine ⟨tp, rfl, ?_⟩
      cases hf? : m.m_tasks.findIdx? (fun t => t.handle == info.h) with
      | none =>
        rw [updateTask_none m info.h (f tp) hf?] at hr
        cases hr
        exact Or.inl ⟨rfl, rfl⟩
      | some it =>
        obtain ⟨task, hg, hh⟩ := findIdx_some_get m info.h it hf?
        obtain ⟨pre, s, h1, h2, h3, h4⟩ := hf tp task
        have hb : (f tp task).1.m_log.getLast? = some (LogItem.ctor s tp) := by
          rw [h4]; exact Task.addLog_getLast pre s tp
        obtain ⟨sig, hu⟩ := updateTask_some m info.h it (f tp) task _ hf? hg hb
        rw [hu] at hr
        cases hr
        refine Or.inr ⟨it, task, pre, s, rfl, hg, hh, h1, h2, h3, ?_⟩
        simp only [h4, LogItem.ctor]
  cases kind with
  | task_started => exact absurd rfl hk
  | task_finished =>
    refine key MonitorImpl.task_finished_lambda ?_ h
    intro tp task
    exact ⟨{ task with m_finished := true }, LogItem.State.Finished, rfl, rfl, rfl, by
      simp only [MonitorImpl.task_finished_lambda, Task.markFinished_fst]⟩
  | task_suspended =>
    refine key MonitorImpl.task_suspended_lambda ?_ h
    intro tp task
    exact ⟨{ task with m_suspended := true }, LogItem.State.Suspended, rfl, rfl, rfl, by
      simp only [MonitorImpl.task_suspended_lambda, Task.setSuspended_fst]⟩
  | task_resumed =>
    refine key MonitorImpl.task_resumed_lambda ?_ h
    intro tp task
    exact ⟨{ task with m_suspended := false }, LogItem.State.Resumed, rfl, rfl, rfl, by
      simp only [MonitorImpl.task_resumed_lambda, Task.setSuspended_fst]⟩

end CoschedulaMonitor

/-! ## Monitor: timing invariant -/

namespace CoschedulaMonitor

theorem deliver_started (m : Monitor) (ev : Event) (hk : ev.kind = Notification.task_started) :
    MonitorImpl.deliver m ev = m.addTask ev.info ev.now := by
  unfold MonitorImpl.deliver
  rw [hk]
  rfl

/-- One `addLog` at a time not before any recorded end keeps a log ordered. -/
theorem addLog_keeps_order (t : Task) (s : LogItem.State) (tp : TimePoint)
    (hord : entriesOrdered t.m_log) (hst : startsNonDecreasing t.m_log)
    (hB : ∀ l ∈ t.m_log, l.endTimeNs ≤ tp.ns) :
    entriesOrdered (t.addLog s tp).1.m_log ∧ startsNonDecreasing (t.addLog s tp).1.m_log ∧
      ∀ l ∈ (t.addLog s tp).1.m_log, l.endTimeNs ≤ tp.ns := by
  rcases List.eq_nil_or_concat t.m_log with h | ⟨init, back, h⟩
  · rw [Task.addLog_fst_nil t s tp h]
    simp [entriesOrdered, startsNonDecreasing, LogItem.ctor, LogItem.startTimeNs,
      LogItem.endTimeNs]
  · rw [List.concat_eq_append] at h
    rw [Task.addLog_fst_concat t s tp init back h]
    rw [h] at hord hst hB
    have hback := hord back (by simp)
    have hbackB := hB back (by simp)
    refine ⟨?_, ?_, ?_⟩
    · intro l hl
      simp only [List.mem_append, List.mem_cons, List.mem_singleton, List.not_mem_nil,
        or_false] at hl
      rcases hl with hl | rfl | rfl
      · exact hord l (by simp [hl])
      · simp only [LogItem.startTimeNs, LogItem.endTimeNs] at *
        omega
      · simp [LogItem.ctor, LogItem.startTimeNs, LogItem.endTimeNs]
    · unfold startsNonDecreasing at *
      have e : (init ++ [{ back with m_endTime := tp }, LogItem.ctor s tp]).map
          (fun l => l.startTimeNs) =
          (init ++ [back]).map (fun l => l.startTimeNs) ++ [tp.ns] := by
        simp [LogItem.ctor, LogItem.startTimeNs]
      simp only
      rw [e, List.pairwise_append]
      refine ⟨hst, by simp, ?_⟩
      intro a ha b hb
      simp only [List.mem_singleton] at hb
      obtain ⟨l, hl, rfl⟩ := List.mem_map.mp ha
      have h1 := hord l hl
      have h2 := hB l hl
      omega
    · intro l hl
      simp only [List.mem_append, List.mem_cons, List.mem_singleton, List.not_mem_nil,
        or_false] at hl
      rcases hl with hl | rfl | rfl
      · exact hB l (by simp [hl])
      · simp [LogItem.endTimeNs]
      · simp [LogItem.ctor, LogItem.endTimeNs]

theorem wellTimed_mono (m : Monitor) (T B : Nat) (h : m.wellTimed T) (hTB : T ≤ B) :
    m.wellTimed B := by
  unfold Monitor.wellTimed at *
  cases ho : m.m_startNsTimePoint with
  | none => rw [ho] at h; exact h
  | some o =>
    rw [ho] at h
    obtain ⟨h1, h2, h3⟩ := h
    refine ⟨le_trans h1 hTB, le_trans h2 hTB, ?_⟩
    intro t ht
    obtain ⟨a, b, c⟩ := h3 t ht
    exact ⟨a, b, fun l hl => le_trans (c l hl) hTB⟩

/-- One successful notification at a clock reading not before `T` keeps the
timing invariant and does not lower the total end time. -/
theorem wellTimed_step (m : Monitor) (T : Nat) (ev : Event) (r : Monitor × List Signal)
    (hinv : m.wellTimed T) (hT : T ≤ ev.now) (h : MonitorImpl.deliver m ev = .ok r) :
    r.1.wellTimed ev.now ∧ m.totalEndTime ≤ r.1.totalEndTime := by
  by_cases hk : ev.kind = Notification.task_started
  · rw [deliver_started m ev hk] at h
    obtain ⟨o, ho, hle, hr⟩ := addTask_ok m ev.info ev.now r h
    rw [hr]
    unfold Monitor.wellTimed at hinv ⊢
    rcases ho with ho | ⟨ho, rfl⟩
    · rw [ho] at hinv
      obtain ⟨h1, h2, h3⟩ := hinv
      simp only [Monitor.totalEndTime, TimePoint.ns] at h2 ⊢
      refine ⟨⟨hle, by omega, ?_⟩, by omega⟩
      intro t ht
      simp only [List.mem_append, List.mem_singleton] at ht
      rcases ht with ht | rfl
      · obtain ⟨a, b, c⟩ := h3 t ht
        exact ⟨a, b, fun l hl => le_trans (c l hl) hT⟩
      · simp only [Task.ctor, LogItem.ctor, entriesOrdered, startsNonDecreasing,
          LogItem.startTimeNs, LogItem.endTimeNs, TimePoint.ns, List.mem_singleton,
          forall_eq, le_refl, List.map_cons, List.map_nil, List.pairwise_cons,
          List.not_mem_nil, false_implies, implies_true, List.Pairwise.nil, and_self, true_and]
        omega
    · rw [ho] at hinv
      obtain ⟨h1, h2⟩ := hinv
      simp only [Monitor.totalEndTime, TimePoint.ns, h1, h2, List.nil_append,
        List.mem_singleton, forall_eq, Nat.sub_self, le_refl, true_and, Nat.add_zero]
      simp [Task.ctor, LogItem.ctor, entriesOrdered, startsNonDecreasing,
          LogItem.startTimeNs, LogItem.endTimeNs, TimePoint.ns]
  · obtain ⟨tp, htp, hcase⟩ := deliver_update_cases m ev r hk h
    obtain ⟨o, ho, hle, rfl⟩ := timePoint_ctor_ok m ev.now tp htp
    rcases hcase with ⟨_, rfl⟩ | ⟨it, task, pre, s, _, hg, _, hlog, _, _, hr⟩
    · exact ⟨wellTimed_mono m T ev.now hinv hT, le_refl _⟩
    · rw [hr]
      unfold Monitor.wellTimed at hinv ⊢
      rw [ho] at hinv
      obtain ⟨h1, h2, h3⟩ := hinv
      simp only [ho, Monitor.totalEndTime, TimePoint.ns] at h2 ⊢
      refine ⟨⟨hle, by omega, ?_⟩, by omega⟩
      intro t ht
      rcases List.mem_or_eq_of_mem_set ht with ht | rfl
      · obtain ⟨a, b, c⟩ := h3 t ht
        exact ⟨a, b, fun l hl => le_trans (c l hl) hT⟩
      · have hmem : task ∈ m.m_tasks := List.getElem?_mem (by simpa using hg)
        obtain ⟨a, b, c⟩ := h3 task hmem
        rw [← hlog] at a b c
        obtain ⟨a2, b2, c2⟩ := addLog_keeps_order pre s ⟨ev.now - o⟩ a b (by
          intro l hl
          have := c l hl
          simp only [TimePoint.ns]
          omega)
        refine ⟨a2, b2, ?_⟩
        intro l hl
        have := c2 l hl
        simp only [TimePoint.ns] at this
        omega

/-- The timing invariant along a whole run with non-decreasing clock readings. -/
theorem wellTimed_run (evs : List Event) :
    ∀ (m m2 : Monitor) (T : Nat), m.wellTimed T → (∀ ev ∈ evs, T ≤ ev.now) →
      nonDecreasingTimes evs → MonitorImpl.run m evs = .ok m2 →
      ∃ T2, m2.wellTimed T2 ∧ m.totalEndTime ≤ m2.totalEndTime ∧
        ∀ B, T ≤ B → (∀ ev ∈ evs, ev.now ≤ B) → T2 ≤ B := by
  induction evs with
  | nil =>
    intro m m2 T hinv _ _ hrun
    simp only [MonitorImpl.run] at hrun
    cases hrun
    exact ⟨T, hinv, le_refl _, fun B hB _ => hB⟩
  | cons ev rest ih =>
    intro m m2 T hinv hT hmono hrun
    simp only [MonitorImpl.run] at hrun
    cases hd : MonitorImpl.deliver m ev with
    | error err => rw [hd] at hrun; cases hrun
    | ok r =>
      rw [hd] at hrun
      simp only at hrun
      unfold nonDecreasingTimes at hmono
      simp only [List.map_cons, List.pairwise_cons] at hmono
      obtain ⟨hs1, hs2⟩ := wellTimed_step m T ev r hinv (hT ev (List.mem_cons_self _ _)) hd
      obtain ⟨T2, hT2, htot, hbound⟩ := ih r.1 m2 ev.now hs1
        (fun e he => hmono.1 e.now (List.mem_map.mpr ⟨e, he, rfl⟩)) hmono.2 hrun
      refine ⟨T2, hT2, le_trans hs2 htot, ?_⟩
      intro B _ hB
      exact hbound B (hB ev (List.mem_cons_self _ _)) (fun e he => hB e (List.mem_cons_of_mem _ he))

theorem wellTimed_ctor : Monitor.ctor.wellTimed 0 := by
  simp [Monitor.wellTimed, Monitor.ctor]

end CoschedulaMonitor

/-! ## Log order and total end time (C3, C4) -/

namespace CoschedulaMonitor

/-- C3. For every sequence of lifecycle notifications delivered to a fresh Monitor
with non-decreasing clock readings (for a single handle or for several), every
entry of every task's log has `end >= start` and the `start` values along each
log are non-decreasing; a freshly constructed entry has `end == start`. -/
theorem log_entries_ordered (evs : List Event) (m : Monitor)
    (hmono : nonDecreasingTimes evs) (hrun : MonitorImpl.run Monitor.ctor evs = .ok m) :
    (∀ t ∈ m.m_tasks, entriesOrdered t.logList ∧ startsNonDecreasing t.logList) ∧
    (∀ (s : LogItem.State) (time : TimePoint),
      (LogItem.ctor s time).endTime = (LogItem.ctor s time).startTime) := by
  refine ⟨?_, fun _ _ => rfl⟩
  obtain ⟨T2, hT2, _, _⟩ := wellTimed_run evs Monitor.ctor m 0 wellTimed_ctor
    (fun _ _ => Nat.zero_le _) hmono hrun
  intro t ht
  unfold Monitor.wellTimed at hT2
  cases ho : m.m_startNsTimePoint with
  | none =>
    rw [ho] at hT2
    rw [hT2.1] at ht
    cases ht
  | some o =>
    rw [ho] at hT2
    obtain ⟨a, b, _⟩ := hT2.2.2 t ht
    exact ⟨a, b⟩

theorem log_entries_ordered_witness :
    nonDecreasingTimes sampleLifecycle ∧
    ∃ m, MonitorImpl.run Monitor.ctor sampleLifecycle = .ok m ∧ m.m_tasks.length = 1 ∧
      ∀ t ∈ m.m_tasks, entriesOrdered t.logList ∧ startsNonDecreasing t.logList :=
  ⟨by unfold nonDecreasingTimes; decide, _, rfl, rfl,
    (log_entries_ordered sampleLifecycle _ (by unfold nonDecreasingTimes; decide) rfl).1⟩

/-- C4, as stated, fails: with clock readings at or after the origin that go back
(0, 10, then 5), the third notification lowers the total end time from 10 to 5. -/
theorem total_end_time_decreases_when_clock_goes_back :
    ∃ m r, MonitorImpl.run Monitor.ctor
        [⟨Notification.task_started, ⟨1, false, "f", none⟩, 0⟩,
         ⟨Notification.task_started, ⟨2, false, "g", none⟩, 10⟩] = .ok m ∧
      m.m_startNsTimePoint = some 0 ∧
      MonitorImpl.deliver m ⟨Notification.task_suspended, ⟨1, false, "f", none⟩, 5⟩ = .ok r ∧
      m.totalEndTime = 10 ∧ r.1.totalEndTime = 5 ∧ ¬ (r.1.totalEndTime ≥ m.totalEndTime) :=
  ⟨_, _, rfl, rfl, rfl, rfl, rfl, by decide⟩

theorem pairwise_concat_le (evs : List Event) (ev : Event)
    (h : nonDecreasingTimes (evs ++ [ev])) :
    nonDecreasingTimes evs ∧ ∀ e ∈ evs, e.now ≤ ev.now := by
  unfold nonDecreasingTimes at *
  rw [List.map_append, List.pairwise_append] at h
  refine ⟨h.1, fun e he => h.2.2 e.now (List.mem_map.mpr ⟨e, he, rfl⟩) ev.now (by simp)⟩

/-- C4 (amended). Along any notification sequence delivered to a fresh Monitor
with non-decreasing clock readings, each successful notification leaves the
total end time at least as large as before; a start or a successful update
leaves it equal to the maximum of its previous value and the end of the last
log entry of the task concerned (for an update this is that task's `endTime`),
and a dropped notification leaves it unchanged. -/
theorem total_end_time_nondecreasing (evs : List Event) (ev : Event) (m : Monitor)
    (r : Monitor × List Signal)
    (hmono : nonDecreasingTimes (evs ++ [ev]))
    (hrun : MonitorImpl.run Monitor.ctor evs = .ok m)
    (hstep : MonitorImpl.deliver m ev = .ok r) :
    m.totalEndTime ≤ r.1.totalEndTime ∧
    (ev.kind = Notification.task_started →
      ∃ t back, r.1.m_tasks = m.m_tasks ++ [t] ∧ t.logList.getLast? = some back ∧
        r.1.totalEndTime = max m.totalEndTime back.endTimeNs) ∧
    (ev.kind ≠ Notification.task_started →
      ∀ it, m.m_tasks.findIdx? (fun t => t.handle == ev.info.h) = some it →
        ∃ t, r.1.m_tasks.get? it = some t ∧
          r.1.totalEndTime = max m.totalEndTime t.endTime) ∧
    (ev.kind ≠ Notification.task_started →
      m.m_tasks.findIdx? (fun t => t.handle == ev.info.h) = none →
        r.1.totalEndTime = m.totalEndTime) := by
  obtain ⟨hm1, hm2⟩ := pairwise_concat_le evs ev hmono
  obtain ⟨T2, hT2, _, hB⟩ := wellTimed_run evs Monitor.ctor m 0 wellTimed_ctor
    (fun _ _ => Nat.zero_le _) hm1 hrun
  have hT : T2 ≤ ev.now := hB ev.now (Nat.zero_le _) hm2
  obtain ⟨_, hle⟩ := wellTimed_step m T2 ev r hT2 hT hstep
  refine ⟨hle, ?_, ?_, ?_⟩
  · intro hk
    rw [deliver_started m ev hk] at hstep
    obtain ⟨o, _, _, hr⟩ := addTask_ok m ev.info ev.now r hstep
    refine ⟨Task.ctor ev.info ⟨ev.now - o⟩, LogItem.ctor LogItem.State.Started ⟨ev.now - o⟩,
      by rw [hr], rfl, ?_⟩
    have e : r.1.totalEndTime = ev.now - o := by rw [hr]; rfl
    rw [e] at hle ⊢
    simp only [LogItem.ctor, LogItem.endTimeNs, TimePoint.ns]
    omega
  · intro hk it hit
    obtain ⟨tp, _, hcase⟩ := deliver_update_cases m ev r hk hstep
    rcases hcase with ⟨hnone, _⟩ | ⟨it2, task, pre, s, hit2, hg, _, _, _, _, hr⟩
    · rw [hnone] at hit; cases hit
    · rw [hit] at hit2
      cases hit2
      have hlt : it < m.m_tasks.length := by
        have : m.m_tasks[it]? = some task := by simpa using hg
        exact (List.getElem?_eq_some_iff.mp this).1
      refine ⟨(pre.addLog s tp).1, by rw [hr]; simp [hlt], ?_⟩
      have e : r.1.totalEndTime = tp.ns := by rw [hr]; rfl
      rw [e] at hle ⊢
      rw [Task.endTime, (Task.addLog_frame pre s tp).2.2.2.2.2]
      omega
  · intro hk hnone
    obtain ⟨tp, _, hcase⟩ := deliver_update_cases m ev r hk hstep
    rcases hcase with ⟨_, rfl⟩ | ⟨it2, _, _, _, hit2, _⟩
    · rfl
    · rw [hnone] at hit2; cases hit2

theorem total_end_time_nondecreasing_witness :
    nonDecreasingTimes
      (sampleTwoStarts ++ [⟨Notification.task_suspended, sampleInfoF, 115⟩]) ∧
    ∃ m r, MonitorImpl.run Monitor.ctor sampleTwoStarts = .ok m ∧
      MonitorImpl.deliver m ⟨Notification.task_suspended, sampleInfoF, 115⟩ = .ok r ∧
      m.totalEndTime = 10 ∧ r.1.totalEndTime = 15 ∧
      m.totalEndTime ≤ r.1.totalEndTime :=
  ⟨by unfold nonDecreasingTimes; decide, _, _, rfl, rfl, rfl, rfl,
    (total_end_time_nondecreasing sampleTwoStarts
      ⟨Notification.task_suspended, sampleInfoF, 115⟩ _ _
      (by unfold nonDecreasingTimes; decide) rfl rfl).1⟩

end CoschedulaMonitor

/-! ## Unknown handles, duplicate starts, notifications after finish (C5, C6, C7) -/

namespace CoschedulaMonitor

/-- C5 on the initial Monitor: before any start has fixed the time origin, each
of `task_suspended`, `task_resumed` and `task_finished` fails with
`std::bad_optional_access` for every handle and every clock reading, instead of
being dropped. -/
theorem update_on_fresh_monitor_throws (info : task_info) (now : Nat) :
    MonitorImpl.task_suspended Monitor.ctor info now = .error Error.badOptionalAccess ∧
    MonitorImpl.task_resumed Monitor.ctor info now = .error Error.badOptionalAccess ∧
    MonitorImpl.task_finished Monitor.ctor info now = .error Error.badOptionalAccess :=
  ⟨rfl, rfl, rfl⟩

/-- Once the origin is fixed, a notification for a handle without a Task, at a
clock reading not before the origin, is dropped: same Monitor, no signal. -/
theorem unknown_handle_dropped_after_origin (m : Monitor) (info : task_info) (now origin : Nat)
    (ho : m.m_startNsTimePoint = some origin) (hle : origin ≤ now)
    (hnone : ∀ t ∈ m.m_tasks, t.handle ≠ info.h) :
    MonitorImpl.task_suspended m info now = .ok (m, []) ∧
    MonitorImpl.task_resumed m info now = .ok (m, []) ∧
    MonitorImpl.task_finished m info now = .ok (m, []) := by
  have hf : m.m_tasks.findIdx? (fun t => t.handle == info.h) = none := by
    rw [List.findIdx?_eq_none_iff]
    intro t ht
    simpa using hnone t ht
  have htp := timePoint_ctor_of_le m now origin ho hle
  simp only [MonitorImpl.task_suspended, MonitorImpl.task_resumed, MonitorImpl.task_finished,
    TimePoint.nsSinceEpoch, htp, updateTask_none m info.h _ hf, and_self]

/-- C6, as stated, fails: a second `task_started` for handle 1 is not rejected; the
task list then holds two Tasks with handle 1. -/
theorem duplicate_start_adds_second_task :
    ∃ m, MonitorImpl.run Monitor.ctor
        [⟨Notification.task_started, sampleInfoF, 0⟩,
         ⟨Notification.task_started, sampleInfoF, 5⟩] = .ok m ∧
      m.m_tasks.map Task.handle = [1, 1] ∧ ¬ (m.m_tasks.map Task.handle).Nodup :=
  ⟨_, rfl, rfl, by decide⟩

theorem list_set_getElem_self {α : Type} (l : List α) :
    ∀ (i : Nat) (a : α), l[i]? = some a → l.set i a = l := by
  induction l with
  | nil => intro i a h; simp
  | cons x xs ih =>
    intro i a h
    cases i with
    | zero => simp at h; simp [h]
    | succ n => simp at h; simp [ih n a h]

theorem deliver_handles (m : Monitor) (ev : Event) (r : Monitor × List Signal)
    (h : MonitorImpl.deliver m ev = .ok r) :
    r.1.m_tasks.map Task.handle = m.m_tasks.map Task.handle ++ startedHandles [ev] := by
  by_cases hk : ev.kind = Notification.task_started
  · rw [deliver_started m ev hk] at h
    obtain ⟨o, _, _, hr⟩ := addTask_ok m ev.info ev.now r h
    rw [hr]
    simp [startedHandles, hk, Task.handle, Task.ctor]
  · obtain ⟨tp, _, hcase⟩ := deliver_update_cases m ev r hk h
    have e : startedHandles [ev] = [] := by simp [startedHandles, hk]
    rw [e, List.append_nil]
    rcases hcase with ⟨_, rfl⟩ | ⟨it, task, pre, s, _, hg, _, _, hh, _, hr⟩
    · rfl
    · rw [hr]
      simp only [List.map_set]
      have h1 : Task.handle (pre.addLog s tp).1 = Task.handle task := by
        simp only [Task.handle]
        rw [(Task.addLog_frame pre s tp).1, hh]
      rw [h1]
      have h2 : (m.m_tasks.map Task.handle)[it]? = some (Task.handle task) := by
        have : m.m_tasks[it]? = some task := by simpa using hg
        simp [this]
      exact list_set_getElem_self _ it _ h2

theorem startedHandles_cons (ev : Event) (rest : List Event) :
    startedHandles (ev :: rest) = startedHandles [ev] ++ startedHandles rest := by
  by_cases hk : ev.kind = Notification.task_started <;> simp [startedHandles, hk]

theorem run_handles (evs : List Event) :
    ∀ (m m2 : Monitor), MonitorImpl.run m evs = .ok m2 →
      m2.m_tasks.map Task.handle = m.m_tasks.map Task.handle ++ startedHandles evs := by
  induction evs with
  | nil =>
    intro m m2 h
    simp only [MonitorImpl.run] at h
    cases h
    simp [startedHandles]
  | cons ev rest ih =>
    intro m m2 h
    simp only [MonitorImpl.run] at h
    cases hd : MonitorImpl.deliver m ev with
    | error err => rw [hd] at h; cases h
    | ok r =>
      rw [hd] at h
      rw [ih r.1 m2 h, deliver_handles m ev r hd, startedHandles_cons ev rest, List.append_assoc]

/-- C6 (amended). In every Monitor state reached from a fresh Monitor, the handles
of the task list are exactly the handles of the `task_started` notifications
delivered, in order; so the list holds at most one Task per handle whenever no
two `task_started` notifications carried the same handle. -/
theorem one_task_per_started_handle (evs : List Event) (m : Monitor)
    (hdistinct : (startedHandles evs).Nodup)
    (hrun : MonitorImpl.run Monitor.ctor evs = .ok m) :
    (m.m_tasks.map Task.handle).Nodup ∧ m.m_tasks.map Task.handle = startedHandles evs := by
  have h := run_handles evs Monitor.ctor m hrun
  simp only [Monitor.ctor, List.map_nil, List.nil_append] at h
  rw [h]
  exact ⟨hdistinct, rfl⟩

theorem one_task_per_started_handle_witness :
    (startedHandles sampleTwoStarts).Nodup ∧
    ∃ m, MonitorImpl.run Monitor.ctor sampleTwoStarts = .ok m ∧
      (m.m_tasks.map Task.handle).Nodup ∧ m.m_tasks.map Task.handle = [1, 2] :=
  ⟨by decide, _, rfl,
    (one_task_per_started_handle sampleTwoStarts _ (by decide) rfl).1, rfl⟩

/-- C7, as stated, fails: after the lifecycle of the scenario has ended with a
`Finished` entry, a `task_suspended` for the same handle is recorded: the log
grows from four to five entries, the end time moves from 25 to 30 and the
suspended flag flips. -/
theorem notification_after_finish_changes_task :
    ∃ m r t t2, MonitorImpl.run Monitor.ctor sampleLifecycle = .ok m ∧
      m.m_tasks = [t] ∧ t.logList.getLast?.map LogItem.state = some LogItem.State.Finished ∧
      MonitorImpl.deliver m ⟨Notification.task_suspended, sampleInfoF, 130⟩ = .ok r ∧
      r.1.m_tasks = [t2] ∧
      t.logList.length = 4 ∧ t2.logList.length = 5 ∧
      t2.logList.getLast? = some ⟨LogItem.State.Suspended, ⟨30⟩, ⟨30⟩⟩ ∧
      t.endTime = 25 ∧ t2.endTime = 30 ∧
      t.m_suspended = false ∧ t2.m_suspended = true :=
  ⟨_, _, _, _, rfl, rfl, rfl, rfl, rfl, rfl, rfl, rfl, rfl, rfl, rfl, rfl⟩

/-- C7 (amended). `Finished` is not terminal in the log: for a Task whose last
entry is `Finished`, a later `task_suspended`, `task_resumed` or `task_finished`
for its handle, at a clock reading not before the origin, is recorded like any
other notification. It closes the `Finished` entry at the observation time,
appends one entry with the notified state, sets the end time to the observation
time and the suspended flag as the callback says; the work time is unchanged and
a finished flag that was true stays true. -/
theorem notification_after_finish_recorded (m : Monitor) (kind : Notification)
    (info : task_info) (now origin it : Nat) (task : Task) (init : List LogItem)
    (back : LogItem)
    (hk : kind ≠ Notification.task_started)
    (ho : m.m_startNsTimePoint = some origin) (hle : origin ≤ now)
    (hs : m.m_tasks.findIdx? (fun t => t.handle == info.h) = some it)
    (hg : m.m_tasks.get? it = some task)
    (hlog : task.m_log = init ++ [back])
    (hfin : back.m_state = LogItem.State.Finished) :
    ∃ r t2, MonitorImpl.deliver m ⟨kind, info, now⟩ = .ok r ∧
      r.1.m_tasks = m.m_tasks.set it t2 ∧
      t2.logList = init ++ [{ back with m_endTime := ⟨now - origin⟩ },
        LogItem.ctor kind.recorded ⟨now - origin⟩] ∧
      t2.workTime = task.workTime ∧
      t2.endTime = now - origin ∧
      t2.m_finished = (task.m_finished || decide (kind = Notification.task_finished)) ∧
      t2.m_suspended =
        (match kind with
         | Notification.task_suspended => true
         | Notification.task_resumed => false
         | _ => task.m_suspended) := by
  have htp := timePoint_ctor_of_le m now origin ho hle
  have hne : back.m_state ≠ LogItem.State.Resumed := by rw [hfin]; decide
  have key : ∀ (f : Task → Task × List Signal) (pre : Task) (s : LogItem.State),
      (f task).1 = (pre.addLog s ⟨now - origin⟩).1 → pre.m_log = task.m_log →
      ∃ sig, m.updateTask info.h f =
        .ok ({ m with m_tasks := m.m_tasks.set it (pre.addLog s ⟨now - origin⟩).1
                      m_totalEndTime := some ⟨now - origin⟩ }, sig) := by
    intro f pre s hf hpre
    have hb : (f task).1.m_log.getLast? = some (LogItem.ctor s ⟨now - origin⟩) := by
      rw [hf]; exact Task.addLog_getLast pre s _
    obtain ⟨sig, hu⟩ := updateTask_some m info.h it f task _ hs hg hb
    exact ⟨sig, by rw [hu, hf]; rfl⟩
  cases kind with
  | task_started => exact absurd rfl hk
  | task_finished =>
    obtain ⟨sig, hu⟩ := key (MonitorImpl.task_finished_lambda ⟨now - origin⟩)
      { task with m_finished := true } LogItem.State.Finished
      (by simp only [MonitorImpl.task_finished_lambda, Task.markFinished_fst]) rfl
    refine ⟨_, _, by
      simp only [MonitorImpl.deliver, MonitorImpl.task_finished, TimePoint.nsSinceEpoch, htp]
      exact hu, rfl, ?_⟩
    rw [Task.addLog_fst_concat { task with m_finished := true } LogItem.State.Finished
      ⟨now - origin⟩ init back hlog]
    simp [Task.logList, Task.workTime, Task.endTime, Notification.recorded, hne, TimePoint.ns]
  | task_suspended =>
    obtain ⟨sig, hu⟩ := key (MonitorImpl.task_suspended_lambda ⟨now - origin⟩)
      { task with m_suspended := true } LogItem.State.Suspended
      (by simp only [MonitorImpl.task_suspended_lambda, Task.setSuspended_fst]) rfl
    refine ⟨_, _, by
      simp only [MonitorImpl.deliver, MonitorImpl.task_suspended, TimePoint.nsSinceEpoch, htp]
      exact hu, rfl, ?_⟩
    rw [Task.addLog_fst_concat { task with m_suspended := true } LogItem.State.Suspended
      ⟨now - origin⟩ init back hlog]
    simp [Task.logList, Task.workTime, Task.endTime, Notification.recorded, hne, TimePoint.ns]
  | task_resumed =>
    obtain ⟨sig, hu⟩ := key (MonitorImpl.task_resumed_lambda ⟨now - origin⟩)
      { task with m_suspended := false } LogItem.State.Resumed
      (by simp only [MonitorImpl.task_resumed_lambda, Task.setSuspended_fst]) rfl
    refine ⟨_, _, by
      simp only [MonitorImpl.deliver, MonitorImpl.task_resumed, TimePoint.nsSinceEpoch, htp]
      exact hu, rfl, ?_⟩
    rw [Task.addLog_fst_concat { task with m_suspended := false } LogItem.State.Resumed
      ⟨now - origin⟩ init back hlog]
    simp [Task.logList, Task.workTime, Task.endTime, Notification.recorded, hne, TimePoint.ns]

theorem notification_after_finish_recorded_witness :
    MonitorImpl.run Monitor.ctor sampleLifecycle = .ok sampleFinishedMonitor ∧
    ∃ r t2, MonitorImpl.deliver sampleFinishedMonitor
        ⟨Notification.task_resumed, sampleInfoF, 130⟩ = .ok r ∧
      r.1.m_tasks = [t2] ∧ t2.logList.length = 5 ∧
      t2.logList.getLast? = some ⟨LogItem.State.Resumed, ⟨30⟩, ⟨30⟩⟩ ∧
      t2.workTime = 10 ∧ t2.endTime = 30 ∧ t2.m_finished = true ∧ t2.m_suspended = false := by
  obtain ⟨r, t2, h1, h2, h3, h4, h5, h6, h7⟩ :=
    notification_after_finish_recorded sampleFinishedMonitor Notification.task_resumed
      sampleInfoF 130 100 0 sampleFinishedTask
      [⟨LogItem.State.Started, ⟨0⟩, ⟨10⟩⟩, ⟨LogItem.State.Suspended, ⟨10⟩, ⟨15⟩⟩,
       ⟨LogItem.State.Resumed, ⟨15⟩, ⟨25⟩⟩]
      ⟨LogItem.State.Finished, ⟨25⟩, ⟨25⟩⟩ (by decide) rfl (by decide) rfl rfl rfl rfl
  refine ⟨rfl, r, t2, h1, h2, ?_, ?_, h4, h5, ?_, ?_⟩
  · rw [h3]; rfl
  · rw [h3]; rfl
  · rw [h6]; rfl
  · rw [h7]

end CoschedulaMonitor

/-! ## Composition and zoom about a pivot (C11, C12, C13, C20) -/

namespace CoschedulaMonitor

theorem translate_invert_aux {T : Type} [Field T] [DecidableEq T] (x y : T) :
    (Matrix.translate x y).invert = some (Matrix.translate (-x) (-y)) := by
  rw [Matrix.invert_eq]
  have hd : (Matrix.translate x y).det = 1 := by simp [Matrix.translate, Matrix.det]
  rw [hd]
  simp [Matrix.translate]

theorem updateDifferent_fst {α : Type} [DecidableEq α] (out val : α) :
    (updateDifferent out val).1 = val := by
  unfold updateDifferent
  split_ifs with h
  · exact h
  · rfl

/-- What `concatScaleCentered` returns on a pure scale and a pure translation. -/
theorem concatScaleCentered_eq {T : Type} [Field T] [DecidableEq T]
    (sx sy tx ty f cx cy : T) :
    ∃ changed, concatScaleCentered (Matrix.scale sx sy) (Matrix.translate tx ty) f (cx, cy) =
      .ok (Matrix.scale (f * sx) (f * sy),
        Matrix.translate (f * (tx - cx) + cx) (f * (ty - cy) + cy), changed) := by
  have hS : filterAcceptsScale (Matrix.translate cx cy * Matrix.scale1 f *
      Matrix.translate (-cx) (-cy) * Matrix.translate tx ty * Matrix.scale sx sy) =
      Matrix.scale (f * sx) (f * sy) := by
    simp only [filterAcceptsScale, Matrix.scaleX, Matrix.scaleY, Matrix.m_data, Matrix.mul_eq,
      Matrix.translate, Matrix.scale, Matrix.scale1]
    ext <;> simp
  have hT : filterAcceptsTranslation (Matrix.translate cx cy * Matrix.scale1 f *
      Matrix.translate (-cx) (-cy) * Matrix.translate tx ty * Matrix.scale sx sy) =
      Matrix.translate (f * (tx - cx) + cx) (f * (ty - cy) + cy) := by
    simp only [filterAcceptsTranslation, Matrix.translation, Matrix.m_data, Matrix.mul_eq,
      Matrix.translate, Matrix.scale, Matrix.scale1]
    ext <;> simp <;> ring
  unfold concatScaleCentered
  simp only [Matrix.translateP, translate_invert_aux, updateDifferent_fst, hS, hT]
  exact ⟨_, rfl⟩


/-- C11. Matrix composition (`operator*`) is associative, component-wise, for all
3x3 matrices over the integers and over the rationals. -/
theorem compose_associative :
    (∀ A B C : Matrix ℤ, A * B * C = A * (B * C)) ∧
    (∀ A B C : Matrix ℚ, A * B * C = A * (B * C)) :=
  ⟨fun A B C => Matrix.mul_assoc_aux A B C, fun A B C => Matrix.mul_assoc_aux A B C⟩

/-- C20. Over the rationals, for a pure translation `T = translate(tx, ty)`, a
pure scale `S = scale(sx, sy)`, any factor `f` and pivot `c = (cx, cy)`,
`concatScaleCentered` succeeds with outputs `S' = scale(f*sx, f*sy)` and
`T' = translate(f*(tx - cx) + cx, f*(ty - cy) + cy)`, and `T' * S'` equals
`translate(c) * scale(f) * ~translate(c) * T * S`. -/
theorem zoom_decomposition_lossless (tx ty sx sy f cx cy : ℚ) :
    ∃ (S2 T2 N : Matrix ℚ) (changed : Bool),
      concatScaleCentered (Matrix.scale sx sy) (Matrix.translate tx ty) f (cx, cy) =
        .ok (S2, T2, changed) ∧
      S2 = Matrix.scale (f * sx) (f * sy) ∧
      T2 = Matrix.translate (f * (tx - cx) + cx) (f * (ty - cy) + cy) ∧
      (Matrix.translateP (cx, cy)).invert = some N ∧
      T2 * S2 = Matrix.translateP (cx, cy) * Matrix.scale1 f * N * Matrix.translate tx ty *
        Matrix.scale sx sy := by
  obtain ⟨changed, h⟩ := concatScaleCentered_eq sx sy tx ty f cx cy
  refine ⟨_, _, _, changed, h, rfl, rfl, translate_invert_aux cx cy, ?_⟩
  simp only [Matrix.mul_eq, Matrix.translate, Matrix.scale, Matrix.scale1, Matrix.translateP]
  ext <;> simp <;> ring

/-- C12. Over the rationals, for a pure translation `T`, a pure scale `S`, any
pivot `c` and any factor `f != 0`: `concatScaleCentered` with factor `f` followed
by `concatScaleCentered` with factor `1/f` about the same pivot returns exactly
`(S, T)`; likewise `Monitor::scaleAndTrans` with `f` and then `1/f` at the same
wheel position returns the original translation and scale. -/
theorem zoom_then_inverse_zoom_restores (tx ty sx sy f cx cy : ℚ) (hf : f ≠ 0) :
    (∃ (S1 T1 : Matrix ℚ) (ch1 ch2 : Bool),
      concatScaleCentered (Matrix.scale sx sy) (Matrix.translate tx ty) f (cx, cy) =
        .ok (S1, T1, ch1) ∧
      concatScaleCentered S1 T1 (1 / f) (cx, cy) =
        .ok (Matrix.scale sx sy, Matrix.translate tx ty, ch2)) ∧
    (∃ p : ℚ × ℚ, Monitor.scaleAndTrans tx sx f cx = .ok p ∧
      Monitor.scaleAndTrans p.1 p.2 (1 / f) cx = .ok (tx, sx)) := by
  have e1 : ∀ s : ℚ, 1 / f * (f * s) = s := fun s => by field_simp
  have e2 : ∀ t c : ℚ, 1 / f * (f * (t - c) + c - c) + c = t := fun t c => by field_simp
  constructor
  · obtain ⟨ch1, h1⟩ := concatScaleCentered_eq sx sy tx ty f cx cy
    obtain ⟨ch2, h2⟩ := concatScaleCentered_eq (f * sx) (f * sy) (f * (tx - cx) + cx)
      (f * (ty - cy) + cy) (1 / f) cx cy
    rw [e1, e1, e2, e2] at h2
    exact ⟨_, _, ch1, ch2, h1, h2⟩
  · obtain ⟨ch1, h1⟩ := concatScaleCentered_eq sx sx tx tx f cx cx
    obtain ⟨ch2, h2⟩ := concatScaleCentered_eq (f * sx) (f * sx) (f * (tx - cx) + cx)
      (f * (tx - cx) + cx) (1 / f) cx cx
    rw [e1, e2] at h2
    refine ⟨(f * (tx - cx) + cx, f * sx), ?_, ?_⟩
    · simp only [Monitor.scaleAndTrans, h1]
      rfl
    · simp only [Monitor.scaleAndTrans, h2]
      rfl

theorem zoom_then_inverse_zoom_restores_witness :
    (4 : ℚ) ≠ 0 ∧
    (∃ (S1 T1 : Matrix ℚ) (ch1 ch2 : Bool),
      concatScaleCentered (Matrix.scale 2 3) (Matrix.translate 5 7) (4 : ℚ) (1, 2) =
        .ok (S1, T1, ch1) ∧
      concatScaleCentered S1 T1 (1 / 4) (1, 2) =
        .ok (Matrix.scale 2 3, Matrix.translate 5 7, ch2)) :=
  ⟨by norm_num, (zoom_then_inverse_zoom_restores 5 7 2 3 4 1 2 (by norm_num)).1⟩

/-- C13. Over the rationals, for a pure translation `T`, a pure scale `S`, any
factor `f`, pivot `c` and point `p`, with `(S', T')` the output of
`concatScaleCentered`: `applyAffine(T * S, p)` is some point `q`,
`applyAffine(T' * S', p)` is `c + f * (q - c)`, and therefore a point that
`T * S` maps to the pivot is mapped to the pivot by `T' * S'` as well. -/
theorem zoom_centred_on_pivot (tx ty sx sy f cx cy px py : ℚ) :
    ∃ (S1 T1 : Matrix ℚ) (changed : Bool) (q : ℚ × ℚ),
      concatScaleCentered (Matrix.scale sx sy) (Matrix.translate tx ty) f (cx, cy) =
        .ok (S1, T1, changed) ∧
      (Matrix.translate tx ty * Matrix.scale sx sy).applyAffine (px, py) = some q ∧
      (T1 * S1).applyAffine (px, py) = some (cx + f * (q.1 - cx), cy + f * (q.2 - cy)) ∧
      (q = (cx, cy) → (T1 * S1).applyAffine (px, py) = some (cx, cy)) := by
  obtain ⟨changed, h⟩ := concatScaleCentered_eq sx sy tx ty f cx cy
  have hq : (Matrix.translate tx ty * Matrix.scale sx sy).applyAffine (px, py) =
      some (sx * px + tx, sy * py + ty) := by
    simp [Matrix.applyAffine, Matrix.mulVec, Matrix.mul_eq, Matrix.translate, Matrix.scale]
  have hq2 : (Matrix.translate (f * (tx - cx) + cx) (f * (ty - cy) + cy) *
      Matrix.scale (f * sx) (f * sy)).applyAffine (px, py) =
      some (cx + f * (sx * px + tx - cx), cy + f * (sy * py + ty - cy)) := by
    simp [Matrix.applyAffine, Matrix.mulVec, Matrix.mul_eq, Matrix.translate, Matrix.scale]
    constructor <;> ring
  refine ⟨_, _, changed, _, h, hq, hq2, ?_⟩
  intro hqc
  rw [hq2]
  simp only [Prod.mk.injEq] at hqc
  rw [hqc.1, hqc.2]
  simp

end CoschedulaMonitor

/-! ## Task aggregates and the shape of the log (C14, C16, C17) -/

namespace CoschedulaMonitor

/-- C14 at the state right after construction: `Task::Task` stores the entry
`Started@(t, t)` in the log but leaves `m_startTime` and `m_endTime` at their
initialisers 0, so for `t = 10` the start time is 0 while the first entry starts
at 10, and the end time is 0 while the last entry ends at 10. -/
theorem ctor_leaves_start_and_end_time_zero (data : task_info) (t : TimePoint) :
    (Task.ctor data t).startTime = 0 ∧ (Task.ctor data t).endTime = 0 ∧
    (Task.ctor data t).logList.head? = some ⟨LogItem.State.Started, t, t⟩ ∧
    (Task.ctor data t).logList.getLast? = some ⟨LogItem.State.Started, t, t⟩ ∧
    (Task.ctor sampleInfoG ⟨10⟩).startTime ≠
      ((Task.ctor sampleInfoG ⟨10⟩).logList.head?.map LogItem.startTimeNs).getD 0 ∧
    (Task.ctor sampleInfoG ⟨10⟩).endTime ≠
      ((Task.ctor sampleInfoG ⟨10⟩).logList.getLast?.map LogItem.endTimeNs).getD 0 :=
  ⟨rfl, rfl, rfl, rfl, by decide, by decide⟩

/-- After one `addLog` the first entry keeps its state and start. -/
theorem addLog_head (t : Task) (s : LogItem.State) (time : TimePoint) (first : LogItem)
    (h : t.m_log.head? = some first) :
    ∃ first2, (t.addLog s time).1.m_log.head? = some first2 ∧
      first2.m_state = first.m_state ∧ first2.m_startTime = first.m_startTime := by
  rcases List.eq_nil_or_concat t.m_log with hn | ⟨init, back, hc⟩
  · rw [hn] at h; cases h
  · rw [List.concat_eq_append] at hc
    rw [Task.addLog_fst_concat t s time init back hc]
    rw [hc] at h
    cases init with
    | nil =>
      simp only [List.nil_append, List.head?_cons, Option.some.injEq] at h
      subst h
      exact ⟨_, rfl, rfl, rfl⟩
    | cons x xs =>
      simp only [List.cons_append, List.head?_cons, Option.some.injEq] at h
      subst h
      exact ⟨_, rfl, rfl, rfl⟩

/-- The aggregates mirror the log after every `addLog`. -/
theorem addLog_aggregates (t : Task) (s : LogItem.State) (time : TimePoint) :
    (t.addLog s time).1.startTime =
      (((t.addLog s time).1.logList.head?).map LogItem.startTimeNs).getD 0 ∧
    (t.addLog s time).1.endTime =
      (((t.addLog s time).1.logList.getLast?).map LogItem.endTimeNs).getD 0 := by
  constructor
  · rcases List.eq_nil_or_concat t.m_log with hn | ⟨init, back, hc⟩
    · rw [Task.addLog_fst_nil t s time hn]
      simp [Task.startTime, Task.logList, LogItem.ctor, LogItem.startTimeNs]
    · rw [List.concat_eq_append] at hc
      rw [Task.addLog_fst_concat t s time init back hc]
      cases init <;> simp [Task.startTime, Task.logList, LogItem.startTimeNs]
  · rw [Task.logList, Task.addLog_getLast, Task.endTime, (Task.addLog_frame t s time).2.2.2.2.2]
    simp [LogItem.ctor, LogItem.endTimeNs]

/-- After at least one `addLog` the aggregates mirror the log, and the start
time is the start of the entry the constructor stored. -/
theorem records_aggregates (data : task_info) (t : TimePoint)
    (c : LogItem.State × TimePoint) (rest : List (LogItem.State × TimePoint)) :
    ((Task.ctor data t).records (c :: rest)).startTime = t.ns ∧
    ((Task.ctor data t).records (c :: rest)).startTime =
      ((((Task.ctor data t).records (c :: rest)).logList.head?).map LogItem.startTimeNs).getD 0 ∧
    ((Task.ctor data t).records (c :: rest)).endTime =
      ((((Task.ctor data t).records (c :: rest)).logList.getLast?).map LogItem.endTimeNs).getD 0 := by
  have gen : ∀ (calls : List (LogItem.State × TimePoint)) (t0 : Task) (first : LogItem),
      t0.m_log.head? = some first →
      t0.startTime = ((t0.logList.head?).map LogItem.startTimeNs).getD 0 →
      t0.endTime = ((t0.logList.getLast?).map LogItem.endTimeNs).getD 0 →
      (t0.records calls).startTime = first.m_startTime.ns ∧
      (t0.records calls).startTime =
        (((t0.records calls).logList.head?).map LogItem.startTimeNs).getD 0 ∧
      (t0.records calls).endTime =
        (((t0.records calls).logList.getLast?).map LogItem.endTimeNs).getD 0 := by
    intro calls
    induction calls with
    | nil =>
      intro t0 first h1 h2 h3
      refine ⟨?_, h2, h3⟩
      show t0.startTime = first.m_startTime.ns
      rw [h2, Task.logList, h1]
      rfl
    | cons c2 rest2 ih =>
      intro t0 first h1 _ _
      obtain ⟨first2, hf, _, hstart⟩ := addLog_head t0 c2.1 c2.2 first h1
      obtain ⟨a1, a2⟩ := addLog_aggregates t0 c2.1 c2.2
      have := ih (t0.addLog c2.1 c2.2).1 first2 hf a1 a2
      rw [hstart] at this
      exact this
  obtain ⟨first2, hf, _, hstart⟩ :=
    addLog_head (Task.ctor data t) c.1 c.2 ⟨LogItem.State.Started, t, t⟩ rfl
  obtain ⟨a1, a2⟩ := addLog_aggregates (Task.ctor data t) c.1 c.2
  have := gen rest ((Task.ctor data t).addLog c.1 c.2).1 first2 hf a1 a2
  rw [hstart] at this
  exact this

/-- C16. For every Task, target state `s` and observation time `t`, `addLog(s, t)`
yields a log one entry longer whose last entry is `(s, t, t)`; the rest is the
old log in the same order, with only the end of its last entry set to `t`. -/
theorem addLog_appends_and_closes (t : Task) (s : LogItem.State) (time : TimePoint) :
    (t.addLog s time).1.logList.length = t.logList.length + 1 ∧
    (t.addLog s time).1.logList =
      (match t.logList.getLast? with
        | none => []
        | some back => t.logList.dropLast ++ [{ back with m_endTime := time }]) ++
      [⟨s, time, time⟩] ∧
    (∀ (init : List LogItem) (back : LogItem), t.logList = init ++ [back] →
      (t.addLog s time).1.logList =
        init ++ [⟨back.m_state, back.m_startTime, time⟩, ⟨s, time, time⟩]) := by
  rcases List.eq_nil_or_concat t.m_log with hn | ⟨init, back, hc⟩
  · simp only [Task.logList, Task.addLog_fst_nil t s time hn, hn]
    simp [LogItem.ctor]
  · rw [List.concat_eq_append] at hc
    simp only [Task.logList, Task.addLog_fst_concat t s time init back hc, hc]
    refine ⟨by simp, by simp [LogItem.ctor], ?_⟩
    intro init2 back2 h
    obtain ⟨h1, h2⟩ := List.append_inj' h rfl
    simp only [List.cons.injEq, and_true] at h2
    subst h1 h2
    simp [LogItem.ctor]

theorem records_head (calls : List (LogItem.State × TimePoint)) :
    ∀ (t0 : Task) (first : LogItem), t0.m_log.head? = some first →
      ∃ first2, (t0.records calls).m_log.head? = some first2 ∧
        first2.m_state = first.m_state ∧ first2.m_startTime = first.m_startTime := by
  induction calls with
  | nil => intro t0 first h; exact ⟨first, h, rfl, rfl⟩
  | cons c rest ih =>
    intro t0 first h
    obtain ⟨f2, hf, hs, hst⟩ := addLog_head t0 c.1 c.2 first h
    obtain ⟨f3, hf3, hs3, hst3⟩ := ih (t0.addLog c.1 c.2).1 f2 hf
    exact ⟨f3, hf3, hs3.trans hs, hst3.trans hst⟩

/-- C17. The constructor always yields a Task whose log is exactly the one entry
`Started@(t, t)`; after any sequence of `addLog` calls the log is non-empty and
its first entry has state `Started` and start `t`. -/
theorem create_then_records_first_entry (data : task_info) (t : TimePoint)
    (calls : List (LogItem.State × TimePoint)) :
    (Task.ctor data t).logList = [⟨LogItem.State.Started, t, t⟩] ∧
    ∃ (first : LogItem) (rest : List LogItem),
      ((Task.ctor data t).records calls).logList = first :: rest ∧
      first.state = LogItem.State.Started ∧ first.startTime = t := by
  refine ⟨rfl, ?_⟩
  obtain ⟨f, hf, hs, hst⟩ := records_head calls (Task.ctor data t)
    ⟨LogItem.State.Started, t, t⟩ rfl
  cases hl : ((Task.ctor data t).records calls).m_log with
  | nil => rw [hl] at hf; cases hf
  | cons x xs =>
    rw [hl] at hf
    simp only [List.head?_cons, Option.some.injEq] at hf
    subst hf
    exact ⟨x, xs, hl, hs, hst⟩

end CoschedulaMonitor

/-! ## Monitor: total end time against the tasks (C15) -/

namespace CoschedulaMonitor

/-- A successful update notification whose handle is found at index `it`: the
task there is replaced by the result of `addLog` with the state of the callback,
applied to a task `pre` that differs from the old one in a flag only, and the
total end time is set to the observation time. -/
theorem deliver_update_found (m : Monitor) (ev : Event) (r : Monitor × List Signal)
    (it : Nat) (task : Task)
    (hk : ev.kind ≠ Notification.task_started)
    (hd : MonitorImpl.deliver m ev = .ok r)
    (hs : m.m_tasks.findIdx? (fun t => t.handle == ev.info.h) = some it)
    (hg : m.m_tasks.get? it = some task) :
    ∃ (tp : TimePoint) (pre : Task), TimePoint.ctor m ev.now = .ok tp ∧
      pre.m_log = task.m_log ∧ pre.m_handle = task.m_handle ∧
      pre.m_workTime = task.m_workTime ∧ pre.m_location = task.m_location ∧
      pre.m_dep = task.m_dep ∧
      (task.m_finished = true → pre.m_finished = true) ∧
      r.1 = { m with m_tasks := m.m_tasks.set it (pre.addLog ev.kind.recorded tp).1
                     m_totalEndTime := some tp } := by
  obtain ⟨kind, info, now⟩ := ev
  have key : ∀ (f : TimePoint → Task → Task × List Signal) (s : LogItem.State),
      (∀ tp, ∃ pre : Task, pre.m_log = task.m_log ∧ pre.m_handle = task.m_handle ∧
        pre.m_workTime = task.m_workTime ∧ pre.m_location = task.m_location ∧
        pre.m_dep = task.m_dep ∧ (task.m_finished = true → pre.m_finished = true) ∧
        (f tp task).1 = (pre.addLog s tp).1) →
      (match TimePoint.ctor m (TimePoint.nsSinceEpoch now) with
        | .error err => .error err
        | .ok time => m.updateTask info.h (f time)) = Except.ok r →
      ∃ (tp : TimePoint) (pre : Task), TimePoint.ctor m now = .ok tp ∧
        pre.m_log = task.m_log ∧ pre.m_handle = task.m_handle ∧
        pre.m_workTime = task.m_workTime ∧ pre.m_location = task.m_location ∧
        pre.m_dep = task.m_dep ∧
        (task.m_finished = true → pre.m_finished = true) ∧
        r.1 = { m with m_tasks := m.m_tasks.set it (pre.addLog s tp).1
                       m_totalEndTime := some tp } := by
    intro f s hf hr
    simp only [TimePoint.nsSinceEpoch] at hr
    cases htp : TimePoint.ctor m now with
    | error err => rw [htp] at hr; cases hr
    | ok tp =>
      rw [htp] at hr
      simp only at hr
      obtain ⟨pre, h1, h2, h3, h4, h5, h6, h7⟩ := hf tp
      have hb : (f tp task).1.m_log.getLast? = some (LogItem.ctor s tp) := by
        rw [h7]; exact Task.addLog_getLast pre s tp
      obtain ⟨sig, hu⟩ := updateTask_some m info.h it (f tp) task _ hs hg hb
      rw [hu] at hr
      cases hr
      refine ⟨tp, pre, rfl, h1, h2, h3, h4, h5, h6, ?_⟩
      simp only [h7, LogItem.ctor]
  cases kind with
  | task_started => exact absurd rfl hk
  | task_finished =>
    refine key MonitorImpl.task_finished_lambda LogItem.State.Finished ?_ hd
    intro tp
    exact ⟨{ task with m_finished := true }, rfl, rfl, rfl, rfl, rfl, fun _ => rfl, by
      simp only [MonitorImpl.task_finished_lambda, Task.markFinished_fst]⟩
  | task_suspended =>
    refine key MonitorImpl.task_suspended_lambda LogItem.State.Suspended ?_ hd
    intro tp
    exact ⟨{ task with m_suspended := true }, rfl, rfl, rfl, rfl, rfl, fun h => h, by
      simp only [MonitorImpl.task_suspended_lambda, Task.setSuspended_fst]⟩
  | task_resumed =>
    refine key MonitorImpl.task_resumed_lambda LogItem.State.Resumed ?_ hd
    intro tp
    exact ⟨{ task with m_suspended := false }, rfl, rfl, rfl, rfl, rfl, fun h => h, by
      simp only [MonitorImpl.task_resumed_lambda, Task.setSuspended_fst]⟩

/-- States along the log after `addLog`: the old states followed by the new one. -/
theorem addLog_states (t : Task) (s : LogItem.State) (time : TimePoint) :
    (t.addLog s time).1.m_log.map LogItem.state = t.m_log.map LogItem.state ++ [s] := by
  rcases List.eq_nil_or_concat t.m_log with hn | ⟨init, back, hc⟩
  · rw [Task.addLog_fst_nil t s time hn, hn]
    simp [LogItem.ctor, LogItem.state]
  · rw [List.concat_eq_append] at hc
    rw [Task.addLog_fst_concat t s time init back hc, hc]
    simp [LogItem.ctor, LogItem.state]

theorem covers_step (m : Monitor) (T : Nat) (ev : Event) (r : Monitor × List Signal)
    (hinv : m.wellTimed T) (hcov : m.totalCovers) (hT : T ≤ ev.now)
    (h : MonitorImpl.deliver m ev = .ok r) : r.1.totalCovers := by
  obtain ⟨_, hle⟩ := wellTimed_step m T ev r hinv hT h
  have hold : ∀ t ∈ m.m_tasks, t.endTime ≤ r.1.totalEndTime ∧
      ∀ l ∈ t.m_log, l.endTimeNs ≤ r.1.totalEndTime := by
    intro t ht
    obtain ⟨a, b⟩ := hcov t ht
    exact ⟨le_trans a hle, fun l hl => le_trans (b l hl) hle⟩
  by_cases hk : ev.kind = Notification.task_started
  · rw [deliver_started m ev hk] at h
    obtain ⟨o, _, _, hr⟩ := addTask_ok m ev.info ev.now r h
    intro t ht
    have hmem : t ∈ m.m_tasks ∨ t = Task.ctor ev.info ⟨ev.now - o⟩ := by
      rw [hr] at ht
      simpa using ht
    rcases hmem with hmem | rfl
    · exact hold t hmem
    · rw [hr]
      simp [Task.ctor, Task.endTime, Monitor.totalEndTime, LogItem.ctor, LogItem.endTimeNs]
  · obtain ⟨tp, htp, hcase⟩ := deliver_update_cases m ev r hk h
    obtain ⟨o, ho, hle2, rfl⟩ := timePoint_ctor_ok m ev.now tp htp
    rcases hcase with ⟨_, rfl⟩ | ⟨it, task, pre, s, _, hg, _, hlog, _, _, hr⟩
    · exact hcov
    · intro t ht
      have hmem : t ∈ m.m_tasks ∨ t = (pre.addLog s ⟨ev.now - o⟩).1 := by
        rw [hr] at ht
        exact List.mem_or_eq_of_mem_set ht
      rcases hmem with hmem | rfl
      · exact hold t hmem
      · have htask : task ∈ m.m_tasks := List.getElem?_mem (by simpa using hg)
        unfold Monitor.wellTimed at hinv
        rw [ho] at hinv
        obtain ⟨a, b, c⟩ := hinv.2.2 task htask
        rw [← hlog] at a b c
        obtain ⟨_, _, c2⟩ := addLog_keeps_order pre s ⟨ev.now - o⟩ a b (by
          intro l hl
          have := c l hl
          simp only [TimePoint.ns]
          omega)
        rw [hr]
        refine ⟨?_, ?_⟩
        · rw [Task.endTime, (Task.addLog_frame pre s _).2.2.2.2.2]
          exact le_refl _
        · intro l hl
          exact c2 l hl

theorem covers_run (evs : List Event) :
    ∀ (m m2 : Monitor) (T : Nat), m.wellTimed T → m.totalCovers → (∀ ev ∈ evs, T ≤ ev.now) →
      nonDecreasingTimes evs → MonitorImpl.run m evs = .ok m2 → m2.totalCovers := by
  induction evs with
  | nil =>
    intro m m2 T _ hcov _ _ hrun
    simp only [MonitorImpl.run] at hrun
    cases hrun
    exact hcov
  | cons ev rest ih =>
    intro m m2 T hinv hcov hT hmono hrun
    simp only [MonitorImpl.run] at hrun
    cases hd : MonitorImpl.deliver m ev with
    | error err => rw [hd] at hrun; cases hrun
    | ok r =>
      rw [hd] at hrun
      simp only at hrun
      unfold nonDecreasingTimes at hmono
      simp only [List.map_cons, List.pairwise_cons] at hmono
      have hT0 := hT ev (List.mem_cons_self _ _)
      obtain ⟨hs1, _⟩ := wellTimed_step m T ev r hinv hT0 hd
      exact ih r.1 m2 ev.now hs1 (covers_step m T ev r hinv hcov hT0 hd)
        (fun e he => hmono.1 e.now (List.mem_map.mpr ⟨e, he, rfl⟩)) hmono.2 hrun

/-- C15. In every Monitor state reached from a fresh Monitor by notifications with
non-decreasing clock readings, the total end time is at least the end time of
every Task in the task list, and at least the end of the last entry of its log. -/
theorem total_end_time_covers_tasks (evs : List Event) (m : Monitor)
    (hmono : nonDecreasingTimes evs) (hrun : MonitorImpl.run Monitor.ctor evs = .ok m) :
    ∀ t ∈ m.m_tasks, t.endTime ≤ m.totalEndTime ∧
      ∀ back, t.logList.getLast? = some back → back.endTimeNs ≤ m.totalEndTime := by
  have hcov := covers_run evs Monitor.ctor m 0 wellTimed_ctor
    (by intro t ht; simp [Monitor.ctor] at ht) (fun _ _ => Nat.zero_le _) hmono hrun
  intro t ht
  obtain ⟨a, b⟩ := hcov t ht
  exact ⟨a, fun back hb => b back (List.mem_of_mem_getLast? hb)⟩

theorem total_end_time_covers_tasks_witness :
    nonDecreasingTimes (sampleTwoStarts ++ sampleLifecycle.tail) ∧
    ∃ m, MonitorImpl.run Monitor.ctor (sampleTwoStarts ++ sampleLifecycle.tail) = .ok m ∧
      m.m_tasks.map Task.endTime = [25, 0] ∧ m.totalEndTime = 25 ∧
      ∀ t ∈ m.m_tasks, t.endTime ≤ m.totalEndTime ∧
        ∀ back, t.logList.getLast? = some back → back.endTimeNs ≤ m.totalEndTime :=
  ⟨by unfold nonDecreasingTimes; decide, _, rfl, rfl, rfl,
    total_end_time_covers_tasks (sampleTwoStarts ++ sampleLifecycle.tail) _
      (by unfold nonDecreasingTimes; decide) rfl⟩

end CoschedulaMonitor

/-! ## Transitions in the log and the finished flag (C18, C19) -/

namespace CoschedulaMonitor

/-- C18, as stated, fails: `task_resumed` right after `task_started` is recorded,
so the log holds the pair `Started`, `Resumed`, which is not an allowed
transition; a `task_suspended` after `task_finished` is recorded as well. -/
theorem log_records_disallowed_transition :
    ∃ m t m2, MonitorImpl.run Monitor.ctor
        [⟨Notification.task_started, sampleInfoF, 0⟩,
         ⟨Notification.task_resumed, sampleInfoF, 5⟩] = .ok m ∧
      m.m_tasks = [t] ∧
      t.logList.map LogItem.state = [LogItem.State.Started, LogItem.State.Resumed] ∧
      allowedTransition LogItem.State.Started LogItem.State.Resumed = false ∧
      ¬ allowedLog (t.logList.map LogItem.state) ∧
      MonitorImpl.run Monitor.ctor
        [⟨Notification.task_started, sampleInfoF, 0⟩,
         ⟨Notification.task_finished, sampleInfoF, 5⟩,
         ⟨Notification.task_suspended, sampleInfoF, 7⟩] = .ok m2 ∧
      m2.m_tasks.map (fun t => t.logList.map LogItem.state) =
        [[LogItem.State.Started, LogItem.State.Finished, LogItem.State.Suspended]] := by
  refine ⟨_, _, _, rfl, rfl, rfl, rfl, ?_, rfl, rfl⟩
  change ¬ allowedLog [LogItem.State.Started, LogItem.State.Resumed]
  simp [allowedLog, allowedTransition]

theorem single_task_run (updates : List Event) :
    ∀ (m m2 : Monitor) (t : Task) (h : Nat), m.m_tasks = [t] → t.m_handle = h →
      (∀ ev ∈ updates, ev.kind ≠ Notification.task_started ∧ ev.info.h = h) →
      MonitorImpl.run m updates = .ok m2 →
      ∃ t2, m2.m_tasks = [t2] ∧ t2.m_handle = h ∧
        t2.m_log.map LogItem.state =
          t.m_log.map LogItem.state ++ updates.map fun ev => ev.kind.recorded := by
  induction updates with
  | nil =>
    intro m m2 t h hm hh _ hrun
    simp only [MonitorImpl.run] at hrun
    cases hrun
    exact ⟨t, hm, hh, by simp⟩
  | cons ev rest ih =>
    intro m m2 t h hm hh hupd hrun
    simp only [MonitorImpl.run] at hrun
    cases hd : MonitorImpl.deliver m ev with
    | error err => rw [hd] at hrun; cases hrun
    | ok r =>
      rw [hd] at hrun
      simp only at hrun
      obtain ⟨hk, hev⟩ := hupd ev (List.mem_cons_self _ _)
      have hs : m.m_tasks.findIdx? (fun t => t.handle == ev.info.h) = some 0 := by
        rw [hm]
        simp [List.findIdx?_cons, Task.handle, hh, hev]
      have hg : m.m_tasks.get? 0 = some t := by rw [hm]; rfl
      obtain ⟨tp, pre, _, h1, h2, _, _, _, _, hr⟩ := deliver_update_found m ev r 0 t hk hd hs hg
      have hr2 : r.1.m_tasks = [(pre.addLog ev.kind.recorded tp).1] := by
        rw [hr, hm]; rfl
      obtain ⟨t2, ht2, hh2, hst⟩ := ih r.1 m2 (pre.addLog ev.kind.recorded tp).1 h hr2
        (by rw [(Task.addLog_frame pre _ tp).1, h2, hh])
        (fun e he => hupd e (List.mem_cons_of_mem _ he)) hrun
      refine ⟨t2, ht2, hh2, ?_⟩
      rw [hst, addLog_states, h1]
      simp

/-- One handle on a fresh Monitor: after a `task_started` followed by
`task_suspended`, `task_resumed` and `task_finished` notifications for the same
handle in any order, the task's log holds `Started` followed by the states of
the notifications in delivery order. -/
theorem log_states_follow_notifications (info : task_info) (now0 : Nat)
    (updates : List Event) (m : Monitor)
    (hupd : ∀ ev ∈ updates, ev.kind ≠ Notification.task_started ∧ ev.info.h = info.h)
    (hrun : MonitorImpl.run Monitor.ctor
      (⟨Notification.task_started, info, now0⟩ :: updates) = .ok m) :
    ∃ t, m.m_tasks = [t] ∧
      t.logList.map LogItem.state =
        LogItem.State.Started :: updates.map (fun ev => ev.kind.recorded) ∧
      (allowedLog (t.logList.map LogItem.state) ↔
        allowedLog (LogItem.State.Started :: updates.map (fun ev => ev.kind.recorded))) := by
  simp only [MonitorImpl.run] at hrun
  cases hd : MonitorImpl.deliver Monitor.ctor ⟨Notification.task_started, info, now0⟩ with
  | error err => rw [hd] at hrun; cases hrun
  | ok r =>
    rw [hd] at hrun
    simp only at hrun
    rw [deliver_started _ _ rfl] at hd
    obtain ⟨o, _, _, hr⟩ := addTask_ok Monitor.ctor info now0 r hd
    have hr2 : r.1.m_tasks = [Task.ctor info ⟨now0 - o⟩] := by rw [hr]; rfl
    obtain ⟨t2, ht2, _, hst⟩ := single_task_run updates r.1 m _ info.h hr2 rfl hupd hrun
    refine ⟨t2, ht2, ?_, ?_⟩
    · rw [Task.logList, hst]; rfl
    · rw [Task.logList, hst]; rfl

theorem log_states_follow_notifications_witness :
    ∃ m t, MonitorImpl.run Monitor.ctor
        (⟨Notification.task_started, sampleInfoF, 100⟩ :: sampleLifecycle.tail) = .ok m ∧
      m.m_tasks = [t] ∧
      t.logList.map LogItem.state =
        [LogItem.State.Started, LogItem.State.Suspended, LogItem.State.Resumed,
          LogItem.State.Finished] ∧
      allowedLog (t.logList.map LogItem.state) := by
  obtain ⟨t, h1, h2, h3⟩ := log_states_follow_notifications sampleInfoF 100 sampleLifecycle.tail
    sampleFinishedMonitor (by decide) rfl
  refine ⟨sampleFinishedMonitor, t, rfl, h1, h2, h3.mpr ?_⟩
  simp [allowedLog, sampleLifecycle, Notification.recorded, allowedTransition]

/-- A Task that is finished stays finished, at the same index, through any
successful notification. -/
theorem deliver_keeps_finished (m : Monitor) (ev : Event) (r : Monitor × List Signal)
    (i : Nat) (t : Task) (hd : MonitorImpl.deliver m ev = .ok r)
    (hg : m.m_tasks.get? i = some t) (hfin : t.m_finished = true) :
    ∃ t2, r.1.m_tasks.get? i = some t2 ∧ t2.m_finished = true := by
  have hg2 : m.m_tasks[i]? = some t := by simpa using hg
  have hlt : i < m.m_tasks.length := (List.getElem?_eq_some_iff.mp hg2).1
  by_cases hk : ev.kind = Notification.task_started
  · rw [deliver_started m ev hk] at hd
    obtain ⟨o, _, _, hr⟩ := addTask_ok m ev.info ev.now r hd
    refine ⟨t, ?_, hfin⟩
    rw [hr]
    simp only [List.get?_eq_getElem?]
    rw [List.getElem?_append_left hlt]
    exact hg2
  · obtain ⟨tp, _, hcase⟩ := deliver_update_cases m ev r hk hd
    rcases hcase with ⟨_, rfl⟩ | ⟨it, task, _, _, hs, hgt, _, _, _, _, _⟩
    · exact ⟨t, hg, hfin⟩
    · obtain ⟨tp2, pre, _, _, _, _, _, _, hpf, hr⟩ := deliver_update_found m ev r it task hk hd hs hgt
      rw [hr]
      simp only [List.get?_eq_getElem?, List.getElem?_set]
      by_cases hi : it = i
      · subst hi
        have : task = t := by
          have h1 : m.m_tasks[it]? = some task := by simpa using hgt
          rw [hg2] at h1
          exact (Option.some.inj h1).symm
        subst this
        refine ⟨_, by rw [if_pos rfl, if_pos hlt], ?_⟩
        rw [(Task.addLog_frame pre _ tp2).2.2.2.2.1]
        exact hpf hfin
      · exact ⟨t, by rw [if_neg hi]; exact hg2, hfin⟩

/-- C19. The finished flag is monotonic: for a Task whose flag is true,
`markFinished` returns the same Task and emits no signal, and the flag is still
true after `addLog`, after `setSuspended` and, at the same place in the task
list, after any successful Monitor notification; for every Task, `markFinished`
sets the flag and a second `markFinished` changes nothing and emits nothing. -/
theorem finished_is_monotonic (t : Task) (hfin : t.m_finished = true) :
    t.markFinished = (t, []) ∧
    (∀ (s : LogItem.State) (time : TimePoint), (t.addLog s time).1.m_finished = true) ∧
    (∀ b : Bool, (t.setSuspended b).1.m_finished = true) ∧
    (∀ u : Task, u.markFinished.1.m_finished = true ∧
      u.markFinished.1.markFinished = (u.markFinished.1, [])) ∧
    (∀ (m : Monitor) (ev : Event) (r : Monitor × List Signal) (i : Nat),
      MonitorImpl.deliver m ev = .ok r → m.m_tasks.get? i = some t →
      ∃ t2, r.1.m_tasks.get? i = some t2 ∧ t2.m_finished = true) := by
  have idem : ∀ v : Task, v.m_finished = true → v.markFinished = (v, []) := by
    intro v hv
    simp [Task.markFinished, hv]
  refine ⟨idem t hfin, ?_, ?_, ?_, ?_⟩
  · intro s time
    rw [(Task.addLog_frame t s time).2.2.2.2.1, hfin]
  · intro b
    rw [Task.setSuspended_fst]
    exact hfin
  · intro u
    have h1 : u.markFinished.1.m_finished = true := by rw [Task.markFinished_fst]
    exact ⟨h1, idem _ h1⟩
  · intro m ev r i hd hg
    exact deliver_keeps_finished m ev r i t hd hg hfin

theorem finished_is_monotonic_witness :
    sampleFinishedTask.m_finished = true ∧
    sampleFinishedTask.markFinished = (sampleFinishedTask, []) ∧
    ∃ r t2, MonitorImpl.deliver sampleFinishedMonitor
        ⟨Notification.task_resumed, sampleInfoF, 130⟩ = .ok r ∧
      r.1.m_tasks.get? 0 = some t2 ∧ t2.m_finished = true := by
  obtain ⟨h1, _, _, _, h5⟩ := finished_is_monotonic sampleFinishedTask rfl
  obtain ⟨t2, h6, h7⟩ := h5 sampleFinishedMonitor
    ⟨Notification.task_resumed, sampleInfoF, 130⟩ _ 0 rfl rfl
  exact ⟨rfl, h1, _, t2, rfl, h6, h7⟩

end CoschedulaMonitor

/-! ## Pivot translation and frame of a notification (C21, C22) -/

namespace CoschedulaMonitor

/-- C21. Over the rationals, `det(translate(x, y)) == 1` for all `x`, `y`, so
`~translate(x, y)` is never `nullopt` and equals `translate(-x, -y)`; hence
`concatScaleCentered` never fails its `assert(invTranslation)`: it returns a
result for every pair of matrices, every factor and every pivot. -/
theorem translate_always_invertible :
    (∀ x y : ℚ, (Matrix.translate x y).det = 1) ∧
    (∀ x y : ℚ, (Matrix.translate x y).invert ≠ none ∧
      (Matrix.translate x y).invert = some (Matrix.translate (-x) (-y))) ∧
    (∀ (S T : Matrix ℚ) (f : ℚ) (c : ℚ × ℚ),
      ∃ r, concatScaleCentered S T f c = .ok r) := by
  refine ⟨?_, ?_, ?_⟩
  · intro x y
    simp [Matrix.translate, Matrix.det]
  · intro x y
    rw [translate_invert_aux]
    exact ⟨by simp, rfl⟩
  · intro S T f c
    unfold concatScaleCentered
    simp only [Matrix.translateP, translate_invert_aux]
    exact ⟨_, rfl⟩

/-- C22. A successful notification touches only its own task and keeps the task
list order-stable: `task_suspended`, `task_resumed` and `task_finished` for
handle `h` leave the length of the list and the handle at every position
unchanged and leave every Task other than the first one with handle `h`
unchanged in every field; `task_started` leaves all existing Tasks unchanged and
appends exactly one new Task, with the notified handle, at the end. -/
theorem notification_frame (m : Monitor) (ev : Event) (r : Monitor × List Signal)
    (hd : MonitorImpl.deliver m ev = .ok r) :
    (ev.kind ≠ Notification.task_started →
      r.1.m_tasks.length = m.m_tasks.length ∧
      r.1.m_tasks.map Task.handle = m.m_tasks.map Task.handle ∧
      ∀ i, m.m_tasks.findIdx? (fun t => t.handle == ev.info.h) ≠ some i →
        r.1.m_tasks.get? i = m.m_tasks.get? i) ∧
    (ev.kind = Notification.task_started →
      ∃ t, r.1.m_tasks = m.m_tasks ++ [t] ∧ t.handle = ev.info.h) := by
  constructor
  · intro hk
    have hh := deliver_handles m ev r hd
    have e : startedHandles [ev] = [] := by simp [startedHandles, hk]
    rw [e, List.append_nil] at hh
    refine ⟨?_, hh, ?_⟩
    · have := congrArg List.length hh
      simpa using this
    · intro i hi
      obtain ⟨tp, _, hcase⟩ := deliver_update_cases m ev r hk hd
      rcases hcase with ⟨_, rfl⟩ | ⟨it, task, pre, s, hs, _, _, _, _, _, hr⟩
      · rfl
      · rw [hr]
        have hne : it ≠ i := by
          intro hc
          rw [hc] at hs
          exact hi hs
        simp only [List.get?_eq_getElem?, List.getElem?_set, if_neg hne]
  · intro hk
    rw [deliver_started m ev hk] at hd
    obtain ⟨o, _, _, hr⟩ := addTask_ok m ev.info ev.now r hd
    exact ⟨Task.ctor ev.info ⟨ev.now - o⟩, by rw [hr], rfl⟩

theorem notification_frame_witness :
    MonitorImpl.run Monitor.ctor sampleTwoStarts = .ok sampleTwoStartsMonitor ∧
    ∃ r, MonitorImpl.deliver sampleTwoStartsMonitor
        ⟨Notification.task_suspended, sampleInfoF, 115⟩ = .ok r ∧
      r.1.m_tasks.length = 2 ∧ r.1.m_tasks.get? 1 = sampleTwoStartsMonitor.m_tasks.get? 1 ∧
      r.1.m_tasks.get? 0 ≠ sampleTwoStartsMonitor.m_tasks.get? 0 := by
  refine ⟨rfl, _, rfl, rfl, ?_, by decide⟩
  exact ((notification_frame sampleTwoStartsMonitor
    ⟨Notification.task_suspended, sampleInfoF, 115⟩ _ rfl).1 (by decide)).2.2 1 (by decide)

end CoschedulaMonitor

/-! ## Timeline without gaps and busy time against lifetime (C23, C24) -/

namespace CoschedulaMonitor

/-- One `addLog` keeps a log without gaps or overlaps. -/
theorem addLog_contiguous (t : Task) (s : LogItem.State) (time : TimePoint)
    (h : contiguous t.m_log) : contiguous (t.addLog s time).1.m_log := by
  unfold contiguous at *
  rcases List.eq_nil_or_concat t.m_log with hn | ⟨init, back, hc⟩
  · rw [Task.addLog_fst_nil t s time hn]
    simp
  · rw [List.concat_eq_append] at hc
    rw [Task.addLog_fst_concat t s time init back hc]
    rw [hc, List.chain'_append] at h
    simp only
    rw [List.chain'_append]
    refine ⟨h.1, ?_, ?_⟩
    · simp [LogItem.ctor, LogItem.endTime, LogItem.startTime]
    · intro x hx y hy
      simp only [List.head?_cons, Option.mem_def, Option.some.injEq] at hy
      subst hy
      exact h.2.2 x hx back (by simp)

/-- In every state reached from the constructor by `addLog` calls the log has no
gaps or overlaps, and its last entry is open at the time of the latest event. -/
theorem records_contiguous (data : task_info) (t : TimePoint)
    (calls : List (LogItem.State × TimePoint)) :
    contiguous ((Task.ctor data t).records calls).logList ∧
    ∃ back, ((Task.ctor data t).records calls).logList.getLast? = some back ∧
      back.endTime = back.startTime ∧
      back.endTime = ((calls.getLast?).map fun c => c.2).getD t := by
  have gen : ∀ (cs : List (LogItem.State × TimePoint)) (t0 : Task) (b0 : LogItem),
      contiguous t0.m_log → t0.m_log.getLast? = some b0 → b0.m_endTime = b0.m_startTime →
      contiguous (t0.records cs).m_log ∧
      ∃ back, (t0.records cs).m_log.getLast? = some back ∧
        back.m_endTime = back.m_startTime ∧
        back.m_endTime = ((cs.getLast?).map fun c => c.2).getD b0.m_endTime := by
    intro cs
    induction cs with
    | nil => intro t0 b0 h1 h2 h3; exact ⟨h1, b0, h2, h3, rfl⟩
    | cons c rest ih =>
      intro t0 b0 h1 _ _
      obtain ⟨hc, back, hb, he, hl⟩ := ih (t0.addLog c.1 c.2).1 (LogItem.ctor c.1 c.2)
        (addLog_contiguous t0 c.1 c.2 h1) (Task.addLog_getLast t0 c.1 c.2) rfl
      refine ⟨hc, back, hb, he, ?_⟩
      rw [hl]
      cases rest with
      | nil => rfl
      | cons c2 rest2 =>
        rw [List.getLast?_cons_cons]
        cases hq : (c2 :: rest2).getLast? with
        | none => simp at hq
        | some x => rfl
  exact gen calls (Task.ctor data t) ⟨LogItem.State.Started, t, t⟩
    (by simp [contiguous, Task.ctor]) rfl rfl

/-- C23 at the state right after construction: the log `[Started@(t, t)]` has no
gap and its last entry is open at the observation time `t`, but `endTime()` is
still the initialiser 0, so for a Task created at `t = 10` the end time is not
the observation time of the most recent event. -/
theorem end_time_zero_after_create (data : task_info) (t : TimePoint) :
    contiguous (Task.ctor data t).logList ∧
    (Task.ctor data t).logList.getLast? = some ⟨LogItem.State.Started, t, t⟩ ∧
    (Task.ctor data t).endTime = 0 ∧
    ((Task.ctor sampleInfoG ⟨10⟩).records []).endTime ≠ (⟨10⟩ : TimePoint).ns :=
  ⟨by simp [contiguous, Task.ctor, Task.logList], rfl, rfl, by decide⟩

/-- Induction behind C24: along `addLog` calls at non-decreasing times not before
the start of the open entry, the work time plus the start of the first entry
stays at or below the start of the open entry, and no call wraps. -/
theorem records_lifetime_aux (calls : List (LogItem.State × TimePoint)) :
    ∀ (t : Task) (init : List LogItem) (back first : LogItem) (lo : Nat),
      t.m_log = init ++ [back] → t.m_log.head? = some first →
      back.m_endTime = back.m_startTime →
      t.m_workTime + first.m_startTime.ns ≤ back.m_startTime.ns →
      back.m_startTime.ns ≤ lo →
      (∀ c ∈ calls, lo ≤ c.2.ns ∧ c.2.ns < U64) →
      (calls.map fun c => c.2.ns).Pairwise (· ≤ ·) →
      t.recordsExact calls ∧
      ∃ first2 back2, (t.records calls).m_log.head? = some first2 ∧
        (t.records calls).m_log.getLast? = some back2 ∧
        first2.m_startTime = first.m_startTime ∧
        (t.records calls).m_workTime + first2.m_startTime.ns ≤ back2.m_endTime.ns := by
  induction calls with
  | nil =>
    intro t init back first lo hlog hhead hopen hw _ _ _
    refine ⟨trivial, first, back, hhead, ?_, rfl, ?_⟩
    · show t.m_log.getLast? = some back
      rw [hlog]; exact List.getLast?_concat init
    · show t.m_workTime + first.m_startTime.ns ≤ back.m_endTime.ns
      rw [hopen]; exact hw
  | cons c rest ih =>
    intro t init back first lo hlog hhead hopen hw hlo hb hp
    have hc := hb c (List.mem_cons_self _ _)
    simp only [List.map_cons, List.pairwise_cons] at hp
    obtain ⟨first2, hf2, _, hst2⟩ := addLog_head t c.1 c.2 first hhead
    have hst := Task.addLog_fst_concat t c.1 c.2 init back hlog
    have hwork : (t.addLog c.1 c.2).1.m_workTime + first.m_startTime.ns ≤ c.2.ns := by
      rw [hst]
      simp only
      by_cases hr : back.m_state = LogItem.State.Resumed
      · have hle : back.m_startTime.ns ≤ c.2.ns := le_trans hlo hc.1
        rw [if_pos hr, u64_sub_of_le _ _ hle hc.2]
        have := hc.2
        have hlt : t.m_workTime + (c.2.ns - back.m_startTime.ns) < U64 := by omega
        rw [Nat.mod_eq_of_lt hlt]
        omega
      · rw [if_neg hr]
        have := hc.1
        omega
    obtain ⟨hex, f3, b3, h1, h2, h3, h4⟩ := ih (t.addLog c.1 c.2).1
      (init ++ [{ back with m_endTime := c.2 }]) (LogItem.ctor c.1 c.2) first2 c.2.ns
      (by rw [hst]; simp) hf2 rfl (by rw [hst2]; exact hwork) (le_refl _)
      (fun c2 hc2 => ⟨hp.1 c2.2.ns (List.mem_map.mpr ⟨c2, hc2, rfl⟩),
        (hb c2 (List.mem_cons_of_mem _ hc2)).2⟩) hp.2
    refine ⟨⟨?_, hex⟩, f3, b3, h1, h2, h3.trans hst2, h4⟩
    unfold Task.addLogExact
    rw [hlog, List.getLast?_concat]
    intro _
    simp only [LogItem.startTimeNs, Task.workTime]
    have := hc.1
    have := hc.2
    constructor <;> omega

/-- C24. For every Task built by the constructor at time `t0` followed by `addLog`
calls whose 64-bit observation times are non-decreasing from `t0` on, the work
time is at most the end of the last entry minus the start of the first entry,
that difference does not underflow, and no duration subtraction or work-time
addition wraps around. -/
theorem workTime_le_lifetime (data : task_info) (t0 : TimePoint)
    (calls : List (LogItem.State × TimePoint))
    (hmono : (t0.ns :: calls.map fun c => c.2.ns).Pairwise (· ≤ ·))
    (hu64 : ∀ c ∈ calls, c.2.ns < U64) :
    (Task.ctor data t0).recordsExact calls ∧
    ∃ first back, ((Task.ctor data t0).records calls).logList.head? = some first ∧
      ((Task.ctor data t0).records calls).logList.getLast? = some back ∧
      first.startTimeNs ≤ back.endTimeNs ∧
      ((Task.ctor data t0).records calls).workTime ≤ back.endTimeNs - first.startTimeNs := by
  simp only [List.pairwise_cons] at hmono
  obtain ⟨hex, first, back, h1, h2, _, h4⟩ := records_lifetime_aux calls (Task.ctor data t0) []
    ⟨LogItem.State.Started, t0, t0⟩ ⟨LogItem.State.Started, t0, t0⟩ t0.ns rfl rfl rfl
    (by simp [Task.ctor]) (le_refl _)
    (fun c hc => ⟨hmono.1 c.2.ns (List.mem_map.mpr ⟨c, hc, rfl⟩), hu64 c hc⟩) hmono.2
  refine ⟨hex, first, back, h1, h2, ?_, ?_⟩
  · simp only [LogItem.startTimeNs, LogItem.endTimeNs]
    omega
  · simp only [LogItem.startTimeNs, LogItem.endTimeNs, Task.workTime]
    omega

theorem workTime_le_lifetime_witness :
    ((⟨5⟩ : TimePoint).ns :: [(LogItem.State.Suspended, (⟨10⟩ : TimePoint)),
        (LogItem.State.Resumed, ⟨15⟩), (LogItem.State.Finished, ⟨25⟩)].map
          fun c => c.2.ns).Pairwise (· ≤ ·) ∧
    ((Task.ctor sampleInfoG ⟨5⟩).records
        [(LogItem.State.Suspended, ⟨10⟩), (LogItem.State.Resumed, ⟨15⟩),
          (LogItem.State.Finished, ⟨25⟩)]).workTime = 10 ∧
    ∃ first back, ((Task.ctor sampleInfoG ⟨5⟩).records
        [(LogItem.State.Suspended, ⟨10⟩), (LogItem.State.Resumed, ⟨15⟩),
          (LogItem.State.Finished, ⟨25⟩)]).logList.head? = some first ∧
      ((Task.ctor sampleInfoG ⟨5⟩).records
        [(LogItem.State.Suspended, ⟨10⟩), (LogItem.State.Resumed, ⟨15⟩),
          (LogItem.State.Finished, ⟨25⟩)]).logList.getLast? = some back ∧
      first.startTimeNs ≤ back.endTimeNs ∧
      ((Task.ctor sampleInfoG ⟨5⟩).records
        [(LogItem.State.Suspended, ⟨10⟩), (LogItem.State.Resumed, ⟨15⟩),
          (LogItem.State.Finished, ⟨25⟩)]).workTime ≤ back.endTimeNs - first.startTimeNs :=
  ⟨by decide, rfl, (workTime_le_lifetime sampleInfoG ⟨5⟩
    [(LogItem.State.Suspended, ⟨10⟩), (LogItem.State.Resumed, ⟨15⟩),
      (LogItem.State.Finished, ⟨25⟩)] (by decide) (by simp [TimePoint.ns, U64])).2⟩

end CoschedulaMonitor

/-! ## What a notification appends to the log, for any Monitor state (C18) -/

namespace CoschedulaMonitor

theorem allowedLog_concat (states : List LogItem.State) (s : LogItem.State) :
    allowedLog (states ++ [s]) ↔
      allowedLog states ∧ ∀ last ∈ states.getLast?, allowedTransition last s = true := by
  unfold allowedLog
  rw [List.chain'_append]
  simp

/-- C18 (amended). For every Monitor state and every notification that returns:
`task_suspended`, `task_resumed` or `task_finished` whose handle has a Task
appends to the log of the first such Task exactly one entry with the state of
the notification, whatever the state of the previous last entry, and leaves
every other Task as it is; `task_started` appends a Task whose log is
`[Started]`. So a pair of consecutive entries is (state of the last entry at
delivery, state notified), and the new log has only allowed transitions exactly
when the old one has and the notification is an allowed successor of the last
entry. The Monitor checks no transition. -/
theorem notification_appends_its_state (m : Monitor) (ev : Event) (r : Monitor × List Signal)
    (hd : MonitorImpl.deliver m ev = .ok r) :
    (ev.kind = Notification.task_started →
      ∃ t, r.1.m_tasks = m.m_tasks ++ [t] ∧
        t.logList.map LogItem.state = [LogItem.State.Started]) ∧
    (ev.kind ≠ Notification.task_started →
      ∀ (it : Nat) (task : Task),
        m.m_tasks.findIdx? (fun t => t.handle == ev.info.h) = some it →
        m.m_tasks.get? it = some task →
        ∃ t2, r.1.m_tasks.get? it = some t2 ∧
          t2.logList.map LogItem.state = task.logList.map LogItem.state ++ [ev.kind.recorded] ∧
          (allowedLog (t2.logList.map LogItem.state) ↔
            allowedLog (task.logList.map LogItem.state) ∧
              ∀ last ∈ (task.logList.map LogItem.state).getLast?,
                allowedTransition last ev.kind.recorded = true)) ∧
    (ev.kind ≠ Notification.task_started →
      r.1.m_tasks.length = m.m_tasks.length ∧
      ∀ i, m.m_tasks.findIdx? (fun t => t.handle == ev.info.h) ≠ some i →
        r.1.m_tasks.get? i = m.m_tasks.get? i) := by
  refine ⟨?_, ?_, ?_⟩
  · intro hk
    rw [deliver_started m ev hk] at hd
    obtain ⟨o, _, _, hr⟩ := addTask_ok m ev.info ev.now r hd
    exact ⟨Task.ctor ev.info ⟨ev.now - o⟩, by rw [hr], rfl⟩
  · intro hk it task hs hg
    obtain ⟨tp, pre, _, hlog, _, _, _, _, _, hr⟩ := deliver_update_found m ev r it task hk hd hs hg
    have hlt : it < m.m_tasks.length := by
      have : m.m_tasks[it]? = some task := by simpa using hg
      exact (List.getElem?_eq_some_iff.mp this).1
    have hst : (pre.addLog ev.kind.recorded tp).1.logList.map LogItem.state =
        task.logList.map LogItem.state ++ [ev.kind.recorded] := by
      simp only [Task.logList]
      rw [addLog_states, hlog]
    refine ⟨(pre.addLog ev.kind.recorded tp).1, by rw [hr]; simp [hlt], hst, ?_⟩
    rw [hst]
    exact allowedLog_concat _ _
  · intro hk
    obtain ⟨tp, _, hcase⟩ := deliver_update_cases m ev r hk hd
    rcases hcase with ⟨_, rfl⟩ | ⟨it, task, pre, s, hs, _, _, _, _, _, hr⟩
    · exact ⟨rfl, fun _ _ => rfl⟩
    · rw [hr]
      refine ⟨by simp, ?_⟩
      intro i hi
      have hne : it ≠ i := by
        intro hc
        rw [hc] at hs
        exact hi hs
      simp only [List.get?_eq_getElem?, List.getElem?_set, if_neg hne]

theorem notification_appends_its_state_witness :
    MonitorImpl.run Monitor.ctor sampleTwoStarts = .ok sampleTwoStartsMonitor ∧
    ∃ r t2, MonitorImpl.deliver sampleTwoStartsMonitor
        ⟨Notification.task_resumed, sampleInfoG, 120⟩ = .ok r ∧
      r.1.m_tasks.get? 1 = some t2 ∧
      t2.logList.map LogItem.state = [LogItem.State.Started, LogItem.State.Resumed] ∧
      ¬ allowedLog (t2.logList.map LogItem.state) ∧
      r.1.m_tasks.get? 0 = sampleTwoStartsMonitor.m_tasks.get? 0 := by
  have h := notification_appends_its_state sampleTwoStartsMonitor
    ⟨Notification.task_resumed, sampleInfoG, 120⟩ _ rfl
  obtain ⟨t2, h1, h2, _⟩ := h.2.1 (by decide) 1 (Task.ctor sampleInfoG ⟨10⟩) rfl rfl
  refine ⟨rfl, _, t2, rfl, h1, h2, ?_, (h.2.2 (by decide)).2 0 (by decide)⟩
  rw [h2]
  change ¬ allowedLog [LogItem.State.Started, LogItem.State.Resumed]
  simp [allowedLog, allowedTransition]

/-- Along a run in which every notification is an allowed successor when it is
delivered, logs that have only allowed transitions keep only allowed transitions,
for any number of tasks. -/
theorem orderly_run_keeps_allowed_logs (evs : List Event) :
    ∀ (m m2 : Monitor), (∀ t ∈ m.m_tasks, allowedLog (t.logList.map LogItem.state)) →
      MonitorImpl.orderly m evs → MonitorImpl.run m evs = .ok m2 →
      ∀ t ∈ m2.m_tasks, allowedLog (t.logList.map LogItem.state) := by
  induction evs with
  | nil =>
    intro m m2 hall _ hrun
    simp only [MonitorImpl.run] at hrun
    cases hrun
    exact hall
  | cons ev rest ih =>
    intro m m2 hall hord hrun
    simp only [MonitorImpl.run] at hrun
    cases hd : MonitorImpl.deliver m ev with
    | error err => rw [hd] at hrun; cases hrun
    | ok r =>
      rw [hd] at hrun
      simp only at hrun
      obtain ⟨hnext, hrest⟩ := hord
      refine ih r.1 m2 ?_ (hrest r hd) hrun
      by_cases hk : ev.kind = Notification.task_started
      · rw [deliver_started m ev hk] at hd
        obtain ⟨o, _, _, hr⟩ := addTask_ok m ev.info ev.now r hd
        intro t ht
        have hmem : t ∈ m.m_tasks ∨ t = Task.ctor ev.info ⟨ev.now - o⟩ := by
          rw [hr] at ht
          simpa using ht
        rcases hmem with hmem | rfl
        · exact hall t hmem
        · simp [allowedLog, Task.ctor, Task.logList]
      · obtain ⟨tp, _, hcase⟩ := deliver_update_cases m ev r hk hd
        rcases hcase with ⟨_, rfl⟩ | ⟨it, task, _, _, hs, hg, _, _, _, _, _⟩
        · exact hall
        · obtain ⟨tp2, pre, _, hlog, _, _, _, _, _, hr⟩ :=
            deliver_update_found m ev r it task hk hd hs hg
          intro t ht
          have hmem : t ∈ m.m_tasks ∨ t = (pre.addLog ev.kind.recorded tp2).1 := by
            rw [hr] at ht
            exact List.mem_or_eq_of_mem_set ht
          rcases hmem with hmem | rfl
          · exact hall t hmem
          · have htask : task ∈ m.m_tasks := List.getElem?_mem (by simpa using hg)
            simp only [Task.logList]
            rw [addLog_states, hlog, allowedLog_concat]
            refine ⟨hall task htask, ?_⟩
            intro last hlast
            simp only [List.getLast?_map, Option.mem_def, Option.map_eq_some'] at hlast
            obtain ⟨l, hl, rfl⟩ := hlast
            exact hnext hk it task l hs hg hl

end CoschedulaMonitor
